import Mathlib

/-!
Shallow embedding of `src/devito/operations/interpolators.py`
(`UnevaluatedSparseOperation`, `WeightedInterpolation`, `LinearInterpolator`,
`PrecomputedInterpolator`) for checking the natural-language specification
against the code.

Symbolic sympy/devito expressions are embedded as a syntactic AST (`Expr`),
devito `Eq`/`Inc` equations as `Equation`, `ConditionalDimension` as
`CondDim`.  External collaborators (the sparse function's position map,
coordinate indices, point symbols, grid dimensions) are represented by
dedicated atomic constructors, as the spec declares them out of scope and
specifies them only at their interface.
-/

namespace Devito

/-- A grid function (devito `Function`) as seen by the interpolator: a name
and its per-axis origin offsets (`v.origin`, used as `v.origin.get(k, 0)` for
staggering correction).  Origins are kept as rationals. -/
structure GridFn where
  name : String
  origin : List ℚ
deriving DecidableEq, Repr

/-- An access index of a grid function: either the ordinary dense dimension
of axis `a` (the state before `_interpolation_indices` substitutes), or a
guarded indirect index `c[pi] - origin` built from the `ConditionalDimension`
for `(axis, offset position ri)` minus the operand's origin on that axis. -/
inductive AIdx where
  | dense : Nat → AIdx
  | guarded : Nat → Nat → ℚ → AIdx
deriving DecidableEq, Repr

/-- Embedded symbolic expressions.  Atomic constructors stand for the
external symbols supplied by collaborators:
`posBase a` = `self.sfunction._coordinate_indices[a]` (the per-axis base-cell
index `pos`), `posVal a` = the value symbol of `_position_map` for axis `a`,
`coordKey a` = the corresponding key, `psym a` = `_point_symbols[a]`,
`idx a ri` = the fresh index symbol `ii_<name>_<dim a>_<ri>`, `sumAcc` = the
scalar accumulator `Symbol(name='sum')`, `sparseAcc` = the sparse function's
own storage (the lhs of the final write), `dimMin/dimMax/spacing a` =
`d.symbolic_min/_max/.spacing`, `lookup a k` = the precomputed coefficient
table specialised to axis `a` and offset `k`
(`interpolation_coeffs.subs({ddim: a, idim: k})`). -/
inductive Expr where
  | const : ℚ → Expr
  | posBase : Nat → Expr
  | posVal : Nat → Expr
  | coordKey : Nat → Expr
  | psym : Nat → Expr
  | idx : Nat → Nat → Expr
  | sumAcc : Expr
  | sparseAcc : Expr
  | dimMin : Nat → Expr
  | dimMax : Nat → Expr
  | spacing : Nat → Expr
  | add : Expr → Expr → Expr
  | sub : Expr → Expr → Expr
  | mul : Expr → Expr → Expr
  | div : Expr → Expr → Expr
  | intFloor : Expr → Expr
  | lookup : Nat → Int → Expr
  | access : GridFn → List AIdx → Expr
deriving DecidableEq, Repr

/-- Symbolic relational conditions (`sympy.Ge`, `sympy.Le`, `sympy.And`). -/
inductive Cond where
  | ge : Expr → Expr → Cond
  | le : Expr → Expr → Cond
  | and : Cond → Cond → Cond
deriving DecidableEq, Repr

/-- `ConditionalDimension(p.name, sparse_dim, condition=..., indirect=True)`:
the guarded indirect dimension bound to the index symbol `idx axis ri`. -/
structure CondDim where
  axis : Nat
  ri : Nat
  condition : Cond
  indirect : Bool
deriving DecidableEq, Repr

/-- Devito `Eq` (plain assignment) vs `Inc` (reduction / accumulation). -/
inductive EqKind where
  | assign
  | increment
deriving DecidableEq, Repr

/-- A devito equation `Eq(lhs, rhs, implicit_dims=...)` or
`Inc(lhs, rhs, implicit_dims=...)`. -/
structure Equation where
  kind : EqKind
  lhs : Expr
  rhs : Expr
  idims : List Nat
deriving DecidableEq, Repr

/-- Python list indexing `l[i]`: negative indices count from the end; an
index out of range raises `IndexError`, modelled as `none`. -/
def pyGet (l : List α) (i : Int) : Option α :=
  let j : Int := if i < 0 then i + l.length else i
  if j < 0 then none else l.get? j.toNat

/-- Python `range(lo, hi)` over integers (half-open). -/
def intRange (lo hi : Int) : List Int :=
  (List.range (hi - lo).toNat).map (fun (n : Nat) => lo + (n : Int))

/-- `itertools.product(pts, repeat=d)`: all `d`-tuples over `pts`, first
component varying slowest (Python's product iteration order). -/
def ndPoints (pts : List Int) : Nat → List (List Int)
  | 0 => [[]]
  | n + 1 => pts.flatMap (fun x => (ndPoints pts n).map (fun t => x :: t))

/-- Sequence a list of fallible computations (the effect of running a Python
comprehension whose body may raise: the first failure aborts the whole
construction and no partial list escapes). -/
def seqMap (f : α → Option β) : List α → Option (List β)
  | [] => some []
  | a :: as =>
    match f a, seqMap f as with
    | some b, some bs => some (b :: bs)
    | _, _ => none

/-- Modelled from the spec: `devito.tools.prod` (not under `src/`), the
separable product combining per-axis weights multiplicatively
("total N-D weight computed as a product of independent per-axis weights");
sympy's n-ary `Mul` is rendered as a left-nested binary product. -/
def listProd : List Expr → Expr
  | [] => Expr.const 1
  | e :: es => es.foldl Expr.mul e

/-- Static data of a `WeightedInterpolation(sfunction)`: the sparse
function's name, the grid dimensionality `grid.dim`, the radius
`sfunction.r`, whether explicit `gridpoints` are present (queried by
`PrecomputedInterpolator._positions`), and the sparse function's own
dimensions (appended to `implicit_dims` by `implicit_dims`). -/
structure Config where
  name : String
  d : Nat
  r : Nat
  gridpoints : Bool
  sfdims : List Nat
deriving DecidableEq, Repr

/-- The two concrete interpolators (`LinearInterpolator`,
`PrecomputedInterpolator`), dispatched as a closed variant. -/
inductive SchemeKind where
  | linear
  | precomputed
deriving DecidableEq, Repr

/-- `_interp_points`: the per-axis offset range.  Base class / linear:
`range(-r+1, r+1)`.  Precomputed override: `range(-r//2 + 1, r//2 + 1)`
(Python floor division; unary minus binds tighter than `//`, so the lower
bound is `(-r)//2 + 1 = ⌊-r/2⌋ + 1`). -/
def interp_points (c : Config) : SchemeKind → List Int
  | .linear => intRange (-(c.r : Int) + 1) ((c.r : Int) + 1)
  | .precomputed => intRange ((-(c.r : Int)).fdiv 2 + 1) ((c.r : Int).fdiv 2 + 1)

/-- `_weights` for axis `a`.  Linear: `[1 - p/d.spacing, p/d.spacing]`.
Precomputed: one coefficient-table lookup
`icoeffs.subs({ddim: a, idim: k})` per offset `k` in `_interp_points`. -/
def weights (c : Config) (k : SchemeKind) (a : Nat) : List Expr :=
  match k with
  | .linear =>
    [Expr.sub (Expr.const 1) (Expr.div (Expr.psym a) (Expr.spacing a)),
     Expr.div (Expr.psym a) (Expr.spacing a)]
  | .precomputed => (interp_points c k).map (fun off => Expr.lookup a off)

/-- `_coeff_temps`: base class returns `[]`; `LinearInterpolator` emits
`Eq(psym[d], pos - d.spacing*INT(floor(pos/d.spacing)))` for each axis,
with `pos` the `_position_map` value symbol. -/
def coeff_temps (c : Config) (k : SchemeKind) (idims : List Nat) : List Equation :=
  match k with
  | .linear =>
    (List.range c.d).map (fun a =>
      ⟨EqKind.assign, Expr.psym a,
       Expr.sub (Expr.posVal a)
         (Expr.mul (Expr.spacing a)
           (Expr.intFloor (Expr.div (Expr.posVal a) (Expr.spacing a)))), idims⟩)
  | .precomputed => []

/-- `_positions`: `Eq(v, k)` for the `(key, value)` pairs of
`_position_map`; the precomputed override emits none when explicit
`gridpoints` are present. -/
def positions (c : Config) (k : SchemeKind) (idims : List Nat) : List Equation :=
  match k with
  | .linear =>
    (List.range c.d).map (fun a => ⟨EqKind.assign, Expr.posVal a, Expr.coordKey a, idims⟩)
  | .precomputed =>
    if c.gridpoints then []
    else (List.range c.d).map (fun a => ⟨EqKind.assign, Expr.posVal a, Expr.coordKey a, idims⟩)

/-- `_nd_points`: `product(self._interp_points, repeat=self.grid.dim)`. -/
def nd_points (c : Config) (k : SchemeKind) : List (List Int) :=
  ndPoints (interp_points c k) c.d

/-- The combined weight of one neighbor tuple `p`:
`prod([self._weights[d][i] for (d, i) in zip(self._gdim, p)])`, with
Python list indexing (`none` = `IndexError`). -/
def coeff_of (c : Config) (k : SchemeKind) (p : List Int) : Option Expr :=
  (seqMap (fun ai => pyGet (weights c k ai.1) ai.2) ((List.range c.d).zip p)).map listProd

/-- `_interpolation_coeffs`: the combined neighbor-weight list, one entry
per neighbor tuple of `_nd_points` in product iteration order.  (The source
collects the values of a dict keyed by the tuples; the tuples are pairwise
distinct — proved below — so insertion order gives exactly this map.) -/
def interpolation_coeffs (c : Config) (k : SchemeKind) : Option (List Expr) :=
  seqMap (coeff_of c k) (nd_points c k)

/-- The OOB guard for the index symbol of `(axis a, offset position ri)`:
`sympy.And(p >= d.symbolic_min - self.r, p <= d.symbolic_max + self.r)`. -/
def guard_cond (c : Config) (a ri : Nat) : Cond :=
  Cond.and
    (Cond.ge (Expr.idx a ri) (Expr.sub (Expr.dimMin a) (Expr.const c.r)))
    (Cond.le (Expr.idx a ri) (Expr.add (Expr.dimMax a) (Expr.const c.r)))

/-- `mapper[d]`: the ordered list of guarded indirect dimensions
(`ConditionalDimension(p.name, sparse_dim, condition, indirect=True)`)
for axis `a`, one per offset position. -/
def mapper (c : Config) (k : SchemeKind) (a : Nat) : List CondDim :=
  (List.range (interp_points c k).length).map (fun ri => ⟨a, ri, guard_cond c a ri, true⟩)

/-- The index-defining temporaries `Eq(p, pos + r)`: for each axis in order,
for each offset in `_interp_points` in order. -/
def index_temps (c : Config) (k : SchemeKind) (idims : List Nat) : List Equation :=
  (List.range c.d).flatMap (fun a =>
    (interp_points c k).enum.map (fun rioff =>
      ⟨EqKind.assign, Expr.idx a rioff.1,
       Expr.add (Expr.posBase a) (Expr.const (rioff.2 : ℚ)), idims⟩))

/-- The substituted index list of variable `v` at neighbor tuple `p`:
`{k: c[pi] - v.origin.get(k, 0) for ((k, c), pi) in zip(mapper.items(), p)}`,
with Python list indexing into the per-axis `ConditionalDimension` list. -/
def sub_for (c : Config) (k : SchemeKind) (v : GridFn) (p : List Int) : Option (List AIdx) :=
  seqMap (fun api =>
      (pyGet (mapper c k api.1) api.2).map
        (fun cd => AIdx.guarded cd.axis cd.ri (v.origin.getD api.1 0)))
    ((List.range c.d).zip p)

/-- The per-neighbor substitution dictionaries: for each tuple of
`_nd_points` in order, the mapping `v ↦ v.subs(...)` for every variable. -/
def idx_subs (c : Config) (k : SchemeKind) (vars : List GridFn) :
    Option (List (List (GridFn × List AIdx))) :=
  seqMap (fun p => seqMap (fun v => (sub_for c k v p).map (fun l => (v, l))) vars)
    (nd_points c k)

/-- `_interpolation_indices(variables, offset, field_offset, implicit_dims)`:
returns `(idx_subs, temps)` with
`temps = positions ++ coeff_temps ++ index_temps` (the source appends in
exactly this order).  `offset` and `field_offset` are parameters of the
source function that its body never reads. -/
def all_temps (c : Config) (k : SchemeKind) (idims : List Nat) : List Equation :=
  positions c k idims ++ coeff_temps c k idims ++ index_temps c k idims

def interpolation_indices (c : Config) (k : SchemeKind) (vars : List GridFn)
    (offset : ℚ) (fieldOffset : List ℚ) (idims : List Nat) :
    Option (List (List (GridFn × List AIdx)) × List Equation) :=
  (idx_subs c k vars).map (fun s => (s, all_temps c k idims))

/-- The canonical dense index list of a `d`-dimensional grid function. -/
def canonIdx (d : Nat) : List AIdx := (List.range d).map AIdx.dense

/-- A grid function occurrence with its canonical dense indices. -/
def canonAccess (d : Nat) (v : GridFn) : Expr := Expr.access v (canonIdx d)

/-- `e.xreplace(v_sub)` for a per-neighbor substitution dictionary: each
occurrence of a mapped function carrier is rebound to its guarded,
origin-corrected index list. -/
def xreplace (s : List (GridFn × List AIdx)) : Expr → Expr
  | Expr.access f idxs =>
    match s.find? (fun q => decide (q.1 = f)) with
    | some q => Expr.access f q.2
    | none => Expr.access f idxs
  | Expr.add a b => Expr.add (xreplace s a) (xreplace s b)
  | Expr.sub a b => Expr.sub (xreplace s a) (xreplace s b)
  | Expr.mul a b => Expr.mul (xreplace s a) (xreplace s b)
  | Expr.div a b => Expr.div (xreplace s a) (xreplace s b)
  | Expr.intFloor a => Expr.intFloor (xreplace s a)
  | e => e

/-- Modelled from the spec: `devito.symbolics.retrieve_function_carriers`
(not under `src/`), the "operand-enumeration capability (list all
array/field operands referenced)": collects the function carriers of an
expression in traversal order. -/
def retrieve_function_carriers : Expr → List GridFn
  | Expr.access f _ => [f]
  | Expr.add a b => retrieve_function_carriers a ++ retrieve_function_carriers b
  | Expr.sub a b => retrieve_function_carriers a ++ retrieve_function_carriers b
  | Expr.mul a b => retrieve_function_carriers a ++ retrieve_function_carriers b
  | Expr.div a b => retrieve_function_carriers a ++ retrieve_function_carriers b
  | Expr.intFloor a => retrieve_function_carriers a
  | _ => []

/-- `subs_coords`: `[_expr.xreplace(v_sub) * b.xreplace(v_sub)
for b, v_sub in zip(self._interpolation_coeffs, idx_subs)]`. -/
def subs_coords (e : Expr) (coeffs : List Expr)
    (subs : List (List (GridFn × List AIdx))) : List Expr :=
  (coeffs.zip subs).map (fun bv => Expr.mul (xreplace bv.2 e) (xreplace bv.2 bv.1))

/-- `subs_coords_eq`: `[Inc(field.xreplace(vsub), _expr.xreplace(vsub) * b,
implicit_dims=...) for b, vsub in zip(self._interpolation_coeffs, idx_subs)]`
(note: the coefficient `b` is not substituted here). -/
def subs_coords_eq (c : Config) (field : GridFn) (e : Expr) (coeffs : List Expr)
    (subs : List (List (GridFn × List AIdx))) (idims : List Nat) : List Equation :=
  (coeffs.zip subs).map (fun bv =>
    ⟨EqKind.increment, xreplace bv.2 (canonAccess c.d field),
     Expr.mul (xreplace bv.2 e) bv.1, idims⟩)

/-- `implicit_dims`: `as_tuple(implicit_dims) + self.sfunction.dimensions`. -/
def full_idims (c : Config) (idims : List Nat) : List Nat := idims ++ c.sfdims

/-- The callback built by `WeightedInterpolation.interpolate`: temporaries,
a zero-initialised scalar accumulator, one accumulator increment per
neighbor, and the final write of the sparse function (an `Inc` when
`increment=True`, else an `Eq`).  `expr.evaluate` is modelled as the
identity: embedded expressions carry no unevaluated derivatives.
`variables[0].origin` on an empty operand list raises `IndexError`. -/
def interpolate_cb (c : Config) (k : SchemeKind) (expr : Expr) (offset : ℚ)
    (increment : Bool) (implicitDims : List Nat) : Except String (List Equation) :=
  match retrieve_function_carriers expr with
  | [] => Except.error "IndexError"
  | v0 :: _ =>
    match interpolation_indices c k (retrieve_function_carriers expr) offset v0.origin
        (full_idims c implicitDims) with
    | none => Except.error "IndexError"
    | some st =>
      match interpolation_coeffs c k with
      | none => Except.error "IndexError"
      | some coeffs =>
        Except.ok (st.2
          ++ ((⟨EqKind.assign, Expr.sumAcc, Expr.const 0, full_idims c implicitDims⟩ : Equation) ::
              (subs_coords expr coeffs st.1).map (fun i =>
                (⟨EqKind.increment, Expr.sumAcc, i, full_idims c implicitDims⟩ : Equation)))
          ++ [(⟨(if increment then EqKind.increment else EqKind.assign),
                 Expr.sparseAcc, Expr.sumAcc, full_idims c implicitDims⟩ : Equation)])

/-- The callback built by `WeightedInterpolation.inject`: temporaries,
then one guarded increment of the field per neighbor.  The operand list is
`retrieve_function_carriers(_expr) + [field]`. -/
def inject_cb (c : Config) (k : SchemeKind) (field : GridFn) (expr : Expr)
    (offset : ℚ) (implicitDims : List Nat) : Except String (List Equation) :=
  match interpolation_indices c k (retrieve_function_carriers expr ++ [field]) offset
      field.origin (full_idims c implicitDims) with
  | none => Except.error "IndexError"
  | some st =>
    match interpolation_coeffs c k with
    | none => Except.error "IndexError"
    | some coeffs =>
      Except.ok (st.2 ++ subs_coords_eq c field expr coeffs st.1 (full_idims c implicitDims))

/-- `UnevaluatedSparseOperation`: a deferred operation wrapping a callback;
`_evaluate` returns `self.callback()` (the `assert all(isinstance(i, Eq))`
holds by typing here). -/
structure DeferredOp where
  callback : List Equation
deriving DecidableEq, Repr

/-- `_evaluate`: force the deferred operation's callback. -/
def force (op : DeferredOp) : List Equation := op.callback

/-- An element of a combined operation list: a deferred operation or a raw
equation. -/
inductive SpElem where
  | op : DeferredOp → SpElem
  | eqn : Equation → SpElem
deriving DecidableEq, Repr

/-- A possibly nested aggregate of such elements, as fed to `flatten`. -/
inductive SpNested where
  | atom : SpElem → SpNested
  | list : List SpNested → SpNested

mutual

/-- Modelled from the spec: `devito.tools.flatten` (not under `src/`), the
"flatten-on-combine rule" / "additive, order-preserving, flattening
operator", on one element: an atom stays, a nested list is flattened. -/
def flattenOne : SpNested → List SpElem
  | SpNested.atom a => [a]
  | SpNested.list l => flattenSp l

/-- Modelled from the spec: `devito.tools.flatten` (not under `src/`):
flattens a hierarchy of nested lists into a plain ordered list. -/
def flattenSp : List SpNested → List SpElem
  | [] => []
  | x :: rest => flattenOne x ++ flattenSp rest

end

/-- `UnevaluatedSparseOperation.__add__` / `__radd__`:
`flatten([self, other])` resp. `flatten([other, self])`. -/
def spAdd (x y : SpNested) : List SpElem := flattenSp [x, y]

/-- Forcing one element: a deferred operation contributes its callback's
equations, a raw equation contributes itself. -/
def forceElem : SpElem → List Equation
  | SpElem.op o => force o
  | SpElem.eqn e => [e]

/-- The downstream compiler forces a combined list elementwise, in order. -/
def evalAll (l : List SpElem) : List Equation := l.flatMap forceElem

/-- A numeric valuation of the symbolic atoms, used to express what the
emitted guards and weights mean when the generated code runs. -/
structure Valuation where
  posBaseV : Nat → ℚ
  posValV : Nat → ℚ
  coordV : Nat → ℚ
  psymV : Nat → ℚ
  idxV : Nat → Nat → ℚ
  sumV : ℚ
  sparseV : ℚ
  minV : Nat → ℚ
  maxV : Nat → ℚ
  spacingV : Nat → ℚ
  lookupV : Nat → Int → ℚ
  denseV : Nat → ℚ
  fnV : GridFn → List ℚ → ℚ

/-- Value of an access index under a valuation (a guarded index reads the
bound index symbol, corrected by the origin). -/
def evalAIdx (v : Valuation) : AIdx → ℚ
  | AIdx.dense a => v.denseV a
  | AIdx.guarded a ri o => v.idxV a ri - o

/-- Evaluation of embedded expressions. -/
def evalE (v : Valuation) : Expr → ℚ
  | Expr.const q => q
  | Expr.posBase a => v.posBaseV a
  | Expr.posVal a => v.posValV a
  | Expr.coordKey a => v.coordV a
  | Expr.psym a => v.psymV a
  | Expr.idx a ri => v.idxV a ri
  | Expr.sumAcc => v.sumV
  | Expr.sparseAcc => v.sparseV
  | Expr.dimMin a => v.minV a
  | Expr.dimMax a => v.maxV a
  | Expr.spacing a => v.spacingV a
  | Expr.add a b => evalE v a + evalE v b
  | Expr.sub a b => evalE v a - evalE v b
  | Expr.mul a b => evalE v a * evalE v b
  | Expr.div a b => evalE v a / evalE v b
  | Expr.intFloor e => ((Int.floor (evalE v e) : Int) : ℚ)
  | Expr.lookup a i => v.lookupV a i
  | Expr.access f l => v.fnV f (l.map (evalAIdx v))

/-- Evaluation of guard conditions. -/
def evalC (v : Valuation) : Cond → Bool
  | Cond.ge a b => decide (evalE v b ≤ evalE v a)
  | Cond.le a b => decide (evalE v a ≤ evalE v b)
  | Cond.and a b => evalC v a && evalC v b

/-! ### Helper lemmas about the list combinators -/

theorem seqMap_some_length {f : α → Option β} :
    ∀ {l : List α} {bs : List β}, seqMap f l = some bs → bs.length = l.length := by
  intro l
  induction l with
  | nil =>
    intro bs h
    simp only [seqMap, Option.some.injEq] at h
    subst h
    rfl
  | cons a as ih =>
    intro bs h
    simp only [seqMap] at h
    cases hfa : f a with
    | none => rw [hfa] at h; exact absurd h (by simp)
    | some b =>
      rw [hfa] at h
      cases hs : seqMap f as with
      | none => rw [hs] at h; exact absurd h (by simp)
      | some bs2 =>
        rw [hs] at h
        simp only [Option.some.injEq] at h
        subst h
        simp [ih hs]

theorem seqMap_some_get {f : α → Option β} :
    ∀ {l : List α} {bs : List β}, seqMap f l = some bs →
      ∀ i (hi : i < l.length) (hb : i < bs.length),
        f (l.get ⟨i, hi⟩) = some (bs.get ⟨i, hb⟩) := by
  intro l
  induction l with
  | nil => intro bs h i hi hb; exact absurd hi (by simp)
  | cons a as ih =>
    intro bs h i hi hb
    simp only [seqMap] at h
    cases hfa : f a with
    | none => rw [hfa] at h; exact absurd h (by simp)
    | some b =>
      rw [hfa] at h
      cases hs : seqMap f as with
      | none => rw [hs] at h; exact absurd h (by simp)
      | some bs2 =>
        rw [hs] at h
        simp only [Option.some.injEq] at h
        subst h
        cases i with
        | zero => simpa using hfa
        | succ j =>
          simp only [List.get_cons_succ]
          exact ih hs j (by simpa using hi) (by simpa using hb)

theorem seqMap_isSome {f : α → Option β} :
    ∀ {l : List α}, (∀ a ∈ l, (f a).isSome) → ∃ bs, seqMap f l = some bs := by
  intro l
  induction l with
  | nil => intro _; exact ⟨[], rfl⟩
  | cons a as ih =>
    intro h
    obtain ⟨b, hb⟩ := Option.isSome_iff_exists.mp (h a (by simp))
    obtain ⟨bs, hbs⟩ := ih (fun x hx => h x (by simp [hx]))
    exact ⟨b :: bs, by simp [seqMap, hb, hbs]⟩

theorem length_intRange (lo hi : Int) : (intRange lo hi).length = (hi - lo).toNat := by
  simp only [intRange, List.length_map, List.length_range]

theorem getElem_intRange (lo hi : Int) (i : Nat) (h : i < (intRange lo hi).length) :
    (intRange lo hi).get ⟨i, h⟩ = lo + i := by
  simp only [intRange, List.get_eq_getElem, List.getElem_map, List.getElem_range]

theorem mem_intRange {lo hi x : Int} : x ∈ intRange lo hi ↔ lo ≤ x ∧ x < hi := by
  simp only [intRange, List.mem_map, List.mem_range]
  constructor
  · rintro ⟨n, hn, rfl⟩
    omega
  · intro hx
    exact ⟨(x - lo).toNat, by omega, by omega⟩

theorem nodup_intRange (lo hi : Int) : (intRange lo hi).Nodup := by
  unfold intRange
  refine List.Nodup.map ?_ (List.nodup_range _)
  intro a b hab
  have h2 : lo + (a : Int) = lo + (b : Int) := hab
  omega

theorem sum_map_fixed {c : Nat} : ∀ l : List α, (l.map (fun _ => c)).sum = l.length * c := by
  intro l
  induction l with
  | nil => simp
  | cons a as ih => simp [ih, Nat.succ_mul, Nat.add_comm]

theorem length_ndPoints (pts : List Int) : ∀ d, (ndPoints pts d).length = pts.length ^ d := by
  intro d
  induction d with
  | zero => rfl
  | succ n ih =>
    simp only [ndPoints, List.length_flatMap, Function.comp_def, List.length_map, ih]
    rw [sum_map_fixed, Nat.pow_succ, Nat.mul_comm]

theorem mem_ndPoints {pts : List Int} :
    ∀ {d : Nat} {q : List Int},
      q ∈ ndPoints pts d ↔ (q.length = d ∧ ∀ x ∈ q, x ∈ pts) := by
  intro d
  induction d with
  | zero =>
    intro q
    simp only [ndPoints, List.mem_singleton]
    constructor
    · rintro rfl; simp
    · intro hq; exact List.length_eq_zero.mp hq.1
  | succ n ih =>
    intro q
    simp only [ndPoints, List.mem_flatMap, List.mem_map]
    constructor
    · rintro ⟨x, hx, t, ht, rfl⟩
      obtain ⟨hlen, hmem⟩ := ih.mp ht
      refine ⟨by simp [hlen], ?_⟩
      intro y hy
      rcases List.mem_cons.mp hy with h | h
      · exact h ▸ hx
      · exact hmem y h
    · rintro ⟨hlen, hmem⟩
      cases q with
      | nil => exact absurd hlen (by simp)
      | cons x t =>
        refine ⟨x, hmem x (by simp), t, ih.mpr ⟨by simpa using hlen, ?_⟩, rfl⟩
        intro y hy
        exact hmem y (by simp [hy])

theorem nodup_ndPoints {pts : List Int} (h : pts.Nodup) :
    ∀ d, (ndPoints pts d).Nodup := by
  intro d
  induction d with
  | zero => simp [ndPoints]
  | succ n ih =>
    simp only [ndPoints]
    rw [List.nodup_flatMap]
    constructor
    · intro x _
      refine List.Nodup.map ?_ ih
      intro t1 t2 e
      injection e
    · refine h.imp ?_
      intro x y hxy
      intro q hq1 hq2
      obtain ⟨t1, _, rfl⟩ := List.mem_map.mp hq1
      obtain ⟨t2, _, he⟩ := List.mem_map.mp hq2
      injection he with hh _
      exact hxy hh.symm

theorem flattenSp_append :
    ∀ l1 l2 : List SpNested, flattenSp (l1 ++ l2) = flattenSp l1 ++ flattenSp l2 := by
  intro l1 l2
  induction l1 with
  | nil => rfl
  | cons x rest ih => simp [flattenSp, ih]

theorem flattenSp_atoms : ∀ l : List SpElem, flattenSp (l.map SpNested.atom) = l := by
  intro l
  induction l with
  | nil => rfl
  | cons a rest ih => simp [flattenSp, flattenOne, ih]

/-- C6: combining two deferred operations with the additive combinator yields
the flat two-element list holding them in order, forcing that list yields
`force(op1) ++ force(op2)` in that exact order, and further left-associative
combination (the combined flat list re-entering `flatten` as a nested list,
which is what Python's `list.__add__`/`__radd__` interplay produces) stays
flat, order-preserving, and associative under flattening. -/
theorem C6_additive_flattening_combinator (o1 o2 : DeferredOp) (x y z : SpNested) :
    spAdd (SpNested.atom (SpElem.op o1)) (SpNested.atom (SpElem.op o2))
        = [SpElem.op o1, SpElem.op o2]
    ∧ evalAll (spAdd (SpNested.atom (SpElem.op o1)) (SpNested.atom (SpElem.op o2)))
        = force o1 ++ force o2
    ∧ spAdd (SpNested.list (List.map SpNested.atom (spAdd x y))) z
        = spAdd x y ++ flattenOne z
    ∧ flattenSp [x, y, z] = flattenSp [x] ++ flattenSp [y] ++ flattenSp [z]
    ∧ spAdd (SpNested.list [x, y]) z = spAdd x (SpNested.list [y, z]) := by
  refine ⟨rfl, by simp [evalAll, spAdd, flattenSp, flattenOne, forceElem], ?_, ?_, ?_⟩
  · simp [spAdd, flattenSp, flattenOne, flattenSp_append, flattenSp_atoms]
  · simp [flattenSp]
  · simp [spAdd, flattenSp, flattenOne]

/-- C8: for the precomputed scheme the per-axis offset range is exactly the
integers of the half-open interval `[-r//2 + 1, r//2 + 1)` (Python floor
division), enumerated in order, and the per-axis weight list is one
coefficient-table lookup per offset of that range (same length, `i`-th weight
looks up the `i`-th offset). -/
theorem C8_precomputed_offset_range_and_weights (c : Config) (a : Nat) :
    (∀ x : Int, x ∈ interp_points c SchemeKind.precomputed ↔
        ((-(c.r : Int)).fdiv 2 + 1 ≤ x ∧ x < (c.r : Int).fdiv 2 + 1))
    ∧ (∀ i (h : i < (interp_points c SchemeKind.precomputed).length),
        (interp_points c SchemeKind.precomputed).get ⟨i, h⟩
          = (-(c.r : Int)).fdiv 2 + 1 + i)
    ∧ weights c SchemeKind.precomputed a
        = (interp_points c SchemeKind.precomputed).map (fun off => Expr.lookup a off)
    ∧ (weights c SchemeKind.precomputed a).length
        = (interp_points c SchemeKind.precomputed).length := by
  refine ⟨?_, ?_, rfl, by simp [weights]⟩
  · intro x
    exact mem_intRange
  · intro i h
    exact getElem_intRange _ _ i h

/-- Witness for C8 at `r = 4`: the offset range is `[-1, 0, 1, 2]`; offset
`2` lies in the half-open interval and position `3` holds offset `-1+3`. -/
theorem C8_precomputed_offset_range_and_weights_witness :
    (2 : Int) ∈ interp_points ⟨"src", 2, 4, false, []⟩ SchemeKind.precomputed
    ∧ (interp_points ⟨"src", 2, 4, false, []⟩ SchemeKind.precomputed).get ⟨3, by decide⟩
        = (-(4 : Int)).fdiv 2 + 1 + 3 :=
  ⟨((C8_precomputed_offset_range_and_weights ⟨"src", 2, 4, false, []⟩ 0).1 2).mpr
      (by decide),
   (C8_precomputed_offset_range_and_weights ⟨"src", 2, 4, false, []⟩ 0).2.1 3 (by decide)⟩

/-- C9: an interpolation expression with no resolvable field/array operands
fails at force time (`variables[0]` raises `IndexError`) instead of silently
misbehaving, and no partial equation list is returned. -/
theorem C9_empty_operand_list_fails (c : Config) (k : SchemeKind) (expr : Expr)
    (offset : ℚ) (inc : Bool) (idims : List Nat)
    (h : retrieve_function_carriers expr = []) :
    interpolate_cb c k expr offset inc idims = Except.error "IndexError" := by
  simp [interpolate_cb, h]

/-- Witness for C9: interpolating the constant expression `5`. -/
theorem C9_empty_operand_list_fails_witness :
    retrieve_function_carriers (Expr.const 5) = []
    ∧ interpolate_cb ⟨"src", 2, 1, false, []⟩ SchemeKind.linear (Expr.const 5) 0 false []
        = Except.error "IndexError" :=
  ⟨rfl, C9_empty_operand_list_fails ⟨"src", 2, 1, false, []⟩ SchemeKind.linear
    (Expr.const 5) 0 false [] rfl⟩

/-- C10: the produced equation lists are independent of the `offset`
argument and of the internally passed `field_offset`: the index builder
reads neither, and two calls of `interpolate`/`inject` differing only in
`offset` yield structurally equal results. -/
theorem C10_offset_and_field_offset_unused (c : Config) (k : SchemeKind)
    (vars : List GridFn) (expr : Expr) (field : GridFn) (inc : Bool)
    (idims : List Nat) (o1 o2 : ℚ) (fo1 fo2 : List ℚ) :
    interpolation_indices c k vars o1 fo1 idims
        = interpolation_indices c k vars o2 fo2 idims
    ∧ interpolate_cb c k expr o1 inc idims = interpolate_cb c k expr o2 inc idims
    ∧ inject_cb c k field expr o1 idims = inject_cb c k field expr o2 idims :=
  ⟨rfl, rfl, rfl⟩

/-! ### Guardedness of emitted field accesses -/

/-- Index `j` of an access is guarded: it is bound to one of the
conditional, indirect dimensions of axis `j` (its offset position indexes
the per-axis `mapper` list of `ConditionalDimension`s). -/
def idxGuarded (c : Config) (k : SchemeKind) (j : Nat) : AIdx → Prop
  | AIdx.dense _ => False
  | AIdx.guarded a ri _ => a = j ∧ ri < (interp_points c k).length

/-- Every field access occurring in `e` is made through guarded dimensions
only. -/
def exprGuarded (c : Config) (k : SchemeKind) : Expr → Prop
  | Expr.access _ idxs => ∀ j (h : j < idxs.length), idxGuarded c k j (idxs.get ⟨j, h⟩)
  | Expr.add a b => exprGuarded c k a ∧ exprGuarded c k b
  | Expr.sub a b => exprGuarded c k a ∧ exprGuarded c k b
  | Expr.mul a b => exprGuarded c k a ∧ exprGuarded c k b
  | Expr.div a b => exprGuarded c k a ∧ exprGuarded c k b
  | Expr.intFloor a => exprGuarded c k a
  | _ => True

/-- Both sides of an equation access fields through guarded dimensions
only. -/
def eqGuarded (c : Config) (k : SchemeKind) (e : Equation) : Prop :=
  exprGuarded c k e.lhs ∧ exprGuarded c k e.rhs

/-- `e` contains no field access at all. -/
def accessFree : Expr → Prop
  | Expr.access _ _ => False
  | Expr.add a b => accessFree a ∧ accessFree b
  | Expr.sub a b => accessFree a ∧ accessFree b
  | Expr.mul a b => accessFree a ∧ accessFree b
  | Expr.div a b => accessFree a ∧ accessFree b
  | Expr.intFloor a => accessFree a
  | _ => True

theorem exprGuarded_of_accessFree {c : Config} {k : SchemeKind} :
    ∀ {e : Expr}, accessFree e → exprGuarded c k e := by
  intro e
  induction e with
  | access f idxs => intro h; exact absurd h (by simp [accessFree])
  | add a b iha ihb => intro h; exact ⟨iha h.1, ihb h.2⟩
  | sub a b iha ihb => intro h; exact ⟨iha h.1, ihb h.2⟩
  | mul a b iha ihb => intro h; exact ⟨iha h.1, ihb h.2⟩
  | div a b iha ihb => intro h; exact ⟨iha h.1, ihb h.2⟩
  | intFloor a iha => intro h; exact iha h
  | _ => intro h; trivial

theorem xreplace_of_accessFree {s : List (GridFn × List AIdx)} :
    ∀ {e : Expr}, accessFree e → xreplace s e = e := by
  intro e
  induction e with
  | access f idxs => intro h; exact absurd h (by simp [accessFree])
  | add a b iha ihb => intro h; simp [xreplace, iha h.1, ihb h.2]
  | sub a b iha ihb => intro h; simp [xreplace, iha h.1, ihb h.2]
  | mul a b iha ihb => intro h; simp [xreplace, iha h.1, ihb h.2]
  | div a b iha ihb => intro h; simp [xreplace, iha h.1, ihb h.2]
  | intFloor a iha => intro h; simp [xreplace, iha h]
  | _ => intro h; rfl

theorem pyGet_mem {l : List α} {i : Int} {x : α} (h : pyGet l i = some x) : x ∈ l := by
  simp only [pyGet] at h
  split at h
  · split at h
    · exact absurd h (by simp)
    · exact List.get?_mem h
  · exact List.get?_mem h

theorem seqMap_some_mem {f : α → Option β} :
    ∀ {l : List α} {bs : List β}, seqMap f l = some bs →
      ∀ b ∈ bs, ∃ a ∈ l, f a = some b := by
  intro l
  induction l with
  | nil =>
    intro bs h b hb
    simp only [seqMap, Option.some.injEq] at h
    subst h
    exact absurd hb (by simp)
  | cons a as ih =>
    intro bs h b hb
    simp only [seqMap] at h
    cases hfa : f a with
    | none => rw [hfa] at h; exact absurd h (by simp)
    | some b0 =>
      rw [hfa] at h
      cases hs : seqMap f as with
      | none => rw [hs] at h; exact absurd h (by simp)
      | some bs2 =>
        rw [hs] at h
        simp only [Option.some.injEq] at h
        subst h
        rcases List.mem_cons.mp hb with rfl | hb2
        · exact ⟨a, by simp, hfa⟩
        · obtain ⟨a2, ha2, hfa2⟩ := ih hs b hb2
          exact ⟨a2, by simp [ha2], hfa2⟩

theorem seqMap_some_forall {f : α → Option β} :
    ∀ {l : List α} {bs : List β}, seqMap f l = some bs →
      ∀ a ∈ l, ∃ b ∈ bs, f a = some b := by
  intro l
  induction l with
  | nil => intro bs h a ha; exact absurd ha (by simp)
  | cons x as ih =>
    intro bs h a ha
    simp only [seqMap] at h
    cases hfa : f x with
    | none => rw [hfa] at h; exact absurd h (by simp)
    | some b0 =>
      rw [hfa] at h
      cases hs : seqMap f as with
      | none => rw [hs] at h; exact absurd h (by simp)
      | some bs2 =>
        rw [hs] at h
        simp only [Option.some.injEq] at h
        subst h
        rcases List.mem_cons.mp ha with rfl | ha2
        · exact ⟨b0, by simp, hfa⟩
        · obtain ⟨b, hb, hfb⟩ := ih hs a ha2
          exact ⟨b, by simp [hb], hfb⟩

theorem accessFree_weights {c : Config} {k : SchemeKind} {a : Nat} :
    ∀ w ∈ weights c k a, accessFree w := by
  intro w hw
  cases k with
  | linear =>
    simp only [weights, List.mem_cons, List.not_mem_nil, or_false] at hw
    rcases hw with rfl | rfl
    · exact ⟨trivial, trivial, trivial⟩
    · exact ⟨trivial, trivial⟩
  | precomputed =>
    simp only [weights, List.mem_map] at hw
    obtain ⟨off, _, rfl⟩ := hw
    trivial

theorem accessFree_foldl_mul {acc : Expr} :
    ∀ {l : List Expr}, accessFree acc → (∀ e ∈ l, accessFree e) →
      accessFree (l.foldl Expr.mul acc) := by
  intro l
  induction l generalizing acc with
  | nil => intro h _; exact h
  | cons e es ih =>
    intro hacc hl
    exact ih ⟨hacc, hl e (by simp)⟩ (fun x hx => hl x (by simp [hx]))

theorem accessFree_listProd {l : List Expr} (h : ∀ e ∈ l, accessFree e) :
    accessFree (listProd l) := by
  cases l with
  | nil => trivial
  | cons e es =>
    exact accessFree_foldl_mul (h e (by simp)) (fun x hx => h x (by simp [hx]))

theorem coeff_of_accessFree {c : Config} {k : SchemeKind} {p : List Int} {b : Expr}
    (h : coeff_of c k p = some b) : accessFree b := by
  unfold coeff_of at h
  cases hs : seqMap (fun ai => pyGet (weights c k ai.1) ai.2) ((List.range c.d).zip p) with
  | none => rw [hs] at h; exact absurd h (by simp)
  | some fs =>
    rw [hs] at h
    have hb : listProd fs = b := Option.some.inj h
    subst hb
    refine accessFree_listProd ?_
    intro e he
    obtain ⟨ai, _, hai⟩ := seqMap_some_mem hs e he
    exact accessFree_weights e (pyGet_mem hai)

theorem mapper_mem {c : Config} {k : SchemeKind} {a : Nat} {cd : CondDim}
    (h : cd ∈ mapper c k a) :
    cd.axis = a ∧ cd.ri < (interp_points c k).length := by
  unfold mapper at h
  obtain ⟨ri, hri, rfl⟩ := List.mem_map.mp h
  exact ⟨rfl, List.mem_range.mp hri⟩

theorem sub_for_guarded {c : Config} {k : SchemeKind} {v : GridFn} {p : List Int}
    {l : List AIdx} (h : sub_for c k v p = some l) :
    ∀ j (hj : j < l.length), idxGuarded c k j (l.get ⟨j, hj⟩) := by
  intro j hj
  have hlen := seqMap_some_length h
  have hj2 : j < ((List.range c.d).zip p).length := by rw [← hlen]; exact hj
  have hget := seqMap_some_get h j hj2 hj
  have hzip : ((List.range c.d).zip p).get ⟨j, hj2⟩
      = (j, p.get ⟨j, by simp at hj2; omega⟩) := by
    rw [List.get_eq_getElem, List.getElem_zip]
    simp
  rw [hzip] at hget
  simp only at hget
  cases hcd : pyGet (mapper c k j) (p.get ⟨j, by simp at hj2; omega⟩) with
  | none => rw [hcd] at hget; exact absurd hget (by simp)
  | some cd =>
    rw [hcd] at hget
    have he : AIdx.guarded cd.axis cd.ri (v.origin.getD j 0) = l.get ⟨j, hj⟩ :=
      Option.some.inj hget
    rw [← he]
    have hm := mapper_mem (pyGet_mem hcd)
    exact ⟨hm.1, hm.2⟩

theorem idx_subs_entry {c : Config} {k : SchemeKind} {vars : List GridFn}
    {ss : List (List (GridFn × List AIdx))} (h : idx_subs c k vars = some ss) :
    ∀ sub ∈ ss,
      (∀ q ∈ sub, ∀ j (hj : j < q.2.length), idxGuarded c k j (q.2.get ⟨j, hj⟩))
      ∧ (∀ f ∈ vars, ∃ q ∈ sub, q.1 = f) := by
  intro sub hsub
  obtain ⟨p, _, hpsub⟩ := seqMap_some_mem h sub hsub
  constructor
  · intro q hq j hj
    obtain ⟨v, _, hvq⟩ := seqMap_some_mem hpsub q hq
    cases hsf : sub_for c k v p with
    | none => rw [hsf] at hvq; exact absurd hvq (by simp)
    | some l =>
      rw [hsf] at hvq
      have he : (v, l) = q := Option.some.inj hvq
      subst he
      exact sub_for_guarded hsf j hj
  · intro f hf
    obtain ⟨q, hq, hfq⟩ := seqMap_some_forall hpsub f hf
    cases hsf : sub_for c k f p with
    | none => rw [hsf] at hfq; exact absurd hfq (by simp)
    | some l =>
      rw [hsf] at hfq
      have he : (f, l) = q := Option.some.inj hfq
      exact ⟨q, hq, by rw [← he]⟩

theorem xreplace_guarded {c : Config} {k : SchemeKind} {s : List (GridFn × List AIdx)}
    (hg : ∀ q ∈ s, ∀ j (hj : j < q.2.length), idxGuarded c k j (q.2.get ⟨j, hj⟩)) :
    ∀ {e : Expr}, (∀ f ∈ retrieve_function_carriers e, ∃ q ∈ s, q.1 = f) →
      exprGuarded c k (xreplace s e) := by
  intro e
  induction e with
  | access f idxs =>
    intro hcov
    obtain ⟨q, hq, hqf⟩ := hcov f (by simp [retrieve_function_carriers])
    unfold xreplace
    cases hfind : s.find? (fun q2 => decide (q2.1 = f)) with
    | none =>
      exfalso
      have := List.find?_eq_none.mp hfind q hq
      simp [hqf] at this
    | some q2 =>
      have hmem := List.mem_of_find?_eq_some hfind
      intro j hj
      exact hg q2 hmem j hj
  | add a b iha ihb =>
    intro hcov
    exact ⟨iha (fun f hf => hcov f (List.mem_append.mpr (Or.inl hf))),
           ihb (fun f hf => hcov f (List.mem_append.mpr (Or.inr hf)))⟩
  | sub a b iha ihb =>
    intro hcov
    exact ⟨iha (fun f hf => hcov f (List.mem_append.mpr (Or.inl hf))),
           ihb (fun f hf => hcov f (List.mem_append.mpr (Or.inr hf)))⟩
  | mul a b iha ihb =>
    intro hcov
    exact ⟨iha (fun f hf => hcov f (List.mem_append.mpr (Or.inl hf))),
           ihb (fun f hf => hcov f (List.mem_append.mpr (Or.inr hf)))⟩
  | div a b iha ihb =>
    intro hcov
    exact ⟨iha (fun f hf => hcov f (List.mem_append.mpr (Or.inl hf))),
           ihb (fun f hf => hcov f (List.mem_append.mpr (Or.inr hf)))⟩
  | intFloor a iha =>
    intro hcov
    exact iha hcov
  | _ => intro _; trivial

theorem eqGuarded_all_temps {c : Config} {k : SchemeKind} {idims : List Nat} :
    ∀ eq ∈ all_temps c k idims, eqGuarded c k eq := by
  intro eq heq
  unfold all_temps at heq
  rcases List.mem_append.mp heq with h2 | hidx
  · rcases List.mem_append.mp h2 with hpos | hcoef
    · unfold positions at hpos
      cases k with
      | linear =>
        obtain ⟨a, _, rfl⟩ := List.mem_map.mp hpos
        exact ⟨trivial, trivial⟩
      | precomputed =>
        by_cases hg : c.gridpoints
        · rw [if_pos hg] at hpos
          exact absurd hpos (by simp)
        · rw [if_neg hg] at hpos
          obtain ⟨a, _, rfl⟩ := List.mem_map.mp hpos
          exact ⟨trivial, trivial⟩
    · unfold coeff_temps at hcoef
      cases k with
      | linear =>
        obtain ⟨a, _, rfl⟩ := List.mem_map.mp hcoef
        exact ⟨trivial, trivial, trivial, trivial, trivial⟩
      | precomputed => exact absurd hcoef (by simp)
  · unfold index_temps at hidx
    obtain ⟨a, _, hmem⟩ := List.mem_flatMap.mp hidx
    obtain ⟨rioff, _, rfl⟩ := List.mem_map.mp hmem
    exact ⟨trivial, trivial, trivial⟩

theorem interpolate_cb_ok_shape {c : Config} {k : SchemeKind} {expr : Expr}
    {offset : ℚ} {inc : Bool} {implicitDims : List Nat} {out : List Equation}
    (h : interpolate_cb c k expr offset inc implicitDims = Except.ok out) :
    ∃ ss cs, idx_subs c k (retrieve_function_carriers expr) = some ss
      ∧ interpolation_coeffs c k = some cs
      ∧ out = all_temps c k (full_idims c implicitDims)
          ++ ((⟨EqKind.assign, Expr.sumAcc, Expr.const 0, full_idims c implicitDims⟩ : Equation)
              :: (subs_coords expr cs ss).map (fun i =>
                    (⟨EqKind.increment, Expr.sumAcc, i, full_idims c implicitDims⟩ : Equation)))
          ++ [⟨if inc then EqKind.increment else EqKind.assign,
               Expr.sparseAcc, Expr.sumAcc, full_idims c implicitDims⟩] := by
  unfold interpolate_cb interpolation_indices at h
  cases hv : retrieve_function_carriers expr with
  | nil => rw [hv] at h; exact absurd h (by simp)
  | cons v0 vs =>
    rw [hv] at h
    cases hss : idx_subs c k (v0 :: vs) with
    | none => rw [hss] at h; exact absurd h (by simp)
    | some ss =>
      rw [hss] at h
      cases hcs : interpolation_coeffs c k with
      | none => rw [hcs] at h; exact absurd h (by simp)
      | some cs =>
        rw [hcs] at h
        exact ⟨ss, cs, rfl, rfl, (Except.ok.inj h).symm⟩

theorem inject_cb_ok_shape {c : Config} {k : SchemeKind} {field : GridFn}
    {expr : Expr} {offset : ℚ} {implicitDims : List Nat} {out : List Equation}
    (h : inject_cb c k field expr offset implicitDims = Except.ok out) :
    ∃ ss cs, idx_subs c k (retrieve_function_carriers expr ++ [field]) = some ss
      ∧ interpolation_coeffs c k = some cs
      ∧ out = all_temps c k (full_idims c implicitDims)
          ++ subs_coords_eq c field expr cs ss (full_idims c implicitDims) := by
  unfold inject_cb interpolation_indices at h
  cases hss : idx_subs c k (retrieve_function_carriers expr ++ [field]) with
  | none => rw [hss] at h; exact absurd h (by simp)
  | some ss =>
    rw [hss] at h
    cases hcs : interpolation_coeffs c k with
    | none => rw [hcs] at h; exact absurd h (by simp)
    | some cs =>
      rw [hcs] at h
      exact ⟨ss, cs, rfl, rfl, (Except.ok.inj h).symm⟩

theorem interpolate_out_guarded {c : Config} {k : SchemeKind} {expr : Expr}
    {offset : ℚ} {inc : Bool} {idims : List Nat} {out : List Equation}
    (h : interpolate_cb c k expr offset inc idims = Except.ok out) :
    ∀ eq ∈ out, eqGuarded c k eq := by
  obtain ⟨ss, cs, hss, hcs, rfl⟩ := interpolate_cb_ok_shape h
  intro eq heq
  rcases List.mem_append.mp heq with h1 | hlast
  · rcases List.mem_append.mp h1 with htemp | hsummand
    · exact eqGuarded_all_temps eq htemp
    · rcases List.mem_cons.mp hsummand with rfl | hinc
      · exact ⟨trivial, trivial⟩
      · obtain ⟨i, hi, rfl⟩ := List.mem_map.mp hinc
        refine ⟨trivial, ?_⟩
        unfold subs_coords at hi
        obtain ⟨bv, hbv, rfl⟩ := List.mem_map.mp hi
        obtain ⟨b, vsub⟩ := bv
        obtain ⟨hb, hvsub⟩ := List.of_mem_zip hbv
        have hent := idx_subs_entry hss vsub hvsub
        refine ⟨xreplace_guarded hent.1 hent.2, ?_⟩
        have haf : accessFree b := by
          obtain ⟨p, _, hcf⟩ := seqMap_some_mem hcs b hb
          exact coeff_of_accessFree hcf
        rw [xreplace_of_accessFree haf]
        exact exprGuarded_of_accessFree haf
  · have he := List.mem_singleton.mp hlast
    subst he
    exact ⟨trivial, trivial⟩

theorem inject_out_guarded {c : Config} {k : SchemeKind} {field : GridFn}
    {expr : Expr} {offset : ℚ} {idims : List Nat} {out : List Equation}
    (h : inject_cb c k field expr offset idims = Except.ok out) :
    ∀ eq ∈ out, eqGuarded c k eq := by
  obtain ⟨ss, cs, hss, hcs, rfl⟩ := inject_cb_ok_shape h
  intro eq heq
  rcases List.mem_append.mp heq with htemp | heqn
  · exact eqGuarded_all_temps eq htemp
  · unfold subs_coords_eq at heqn
    obtain ⟨bv, hbv, rfl⟩ := List.mem_map.mp heqn
    obtain ⟨b, vsub⟩ := bv
    obtain ⟨hb, hvsub⟩ := List.of_mem_zip hbv
    have hent := idx_subs_entry hss vsub hvsub
    constructor
    · refine xreplace_guarded hent.1 ?_
      intro f hf
      have hff : f = field := by
        simpa [canonAccess, retrieve_function_carriers] using hf
      subst hff
      exact hent.2 f (List.mem_append.mpr (Or.inr (by simp)))
    · refine ⟨?_, ?_⟩
      · exact xreplace_guarded hent.1
          (fun f hf => hent.2 f (List.mem_append.mpr (Or.inl hf)))
      · have haf : accessFree b := by
          obtain ⟨p, _, hcf⟩ := seqMap_some_mem hcs b hb
          exact coeff_of_accessFree hcf
        exact exprGuarded_of_accessFree haf

theorem mapper_get? {c : Config} {k : SchemeKind} {a ri : Nat}
    (hri : ri < (interp_points c k).length) :
    (mapper c k a).get? ri = some ⟨a, ri, guard_cond c a ri, true⟩ := by
  unfold mapper
  rw [List.get?_map]
  rw [List.get?_eq_get (by simpa using hri)]
  simp

theorem index_temp_mem {c : Config} {k : SchemeKind} {idims : List Nat} {a ri : Nat}
    (ha : a < c.d) (hri : ri < (interp_points c k).length) :
    (⟨EqKind.assign, Expr.idx a ri,
      Expr.add (Expr.posBase a)
        (Expr.const (((interp_points c k).get ⟨ri, hri⟩ : Int) : ℚ)), idims⟩ : Equation)
      ∈ index_temps c k idims := by
  unfold index_temps
  refine List.mem_flatMap.mpr ⟨a, List.mem_range.mpr ha, ?_⟩
  refine List.mem_map.mpr ⟨(ri, (interp_points c k).get ⟨ri, hri⟩), ?_, rfl⟩
  have hlen : ri < (interp_points c k).enum.length := by
    rw [List.enum_length]
    exact hri
  have he : (interp_points c k).enum.get ⟨ri, hlen⟩
      = (ri, (interp_points c k).get ⟨ri, hri⟩) := by
    rw [List.get_eq_getElem, List.getElem_enum]
    simp
  rw [← he]
  exact List.get_mem _ ri hlen

/-- C1: for every axis `a` and every offset position `ri` in the per-axis
offset range, the index builder emits the defining equation
`Eq(index, base_position + offset)` among the temporaries of
`_interpolation_indices`; the index symbol is bound to a conditional
indirect dimension whose guard is the conjunction
`(axis.symbolic_min - r <= index) AND (index <= axis.symbolic_max + r)`
(both bounds inclusive); under any valuation the guard holds exactly on the
halo-extended range `[min - r, max + r]` and is false for any index value
outside it; and every field access in the equation lists produced by
`interpolate` and `inject` is made through these guarded dimensions. -/
theorem C1_index_equations_and_oob_guards (c : Config) (k : SchemeKind) (a ri : Nat)
    (ha : a < c.d) (hri : ri < (interp_points c k).length) :
    (∀ idims : List Nat,
        (⟨EqKind.assign, Expr.idx a ri,
          Expr.add (Expr.posBase a)
            (Expr.const (((interp_points c k).get ⟨ri, hri⟩ : Int) : ℚ)),
          idims⟩ : Equation) ∈ all_temps c k idims)
    ∧ (mapper c k a).get? ri = some ⟨a, ri, guard_cond c a ri, true⟩
    ∧ guard_cond c a ri = Cond.and
        (Cond.ge (Expr.idx a ri) (Expr.sub (Expr.dimMin a) (Expr.const c.r)))
        (Cond.le (Expr.idx a ri) (Expr.add (Expr.dimMax a) (Expr.const c.r)))
    ∧ (∀ v : Valuation, evalC v (guard_cond c a ri) = true ↔
          (v.minV a - c.r ≤ v.idxV a ri ∧ v.idxV a ri ≤ v.maxV a + c.r))
    ∧ (∀ v : Valuation,
          (v.idxV a ri < v.minV a - c.r ∨ v.maxV a + c.r < v.idxV a ri) →
          evalC v (guard_cond c a ri) = false)
    ∧ (∀ expr offset inc idims out,
          interpolate_cb c k expr offset inc idims = Except.ok out →
          ∀ eq ∈ out, eqGuarded c k eq)
    ∧ (∀ field expr offset idims out,
          inject_cb c k field expr offset idims = Except.ok out →
          ∀ eq ∈ out, eqGuarded c k eq) := by
  have h4 : ∀ v : Valuation, evalC v (guard_cond c a ri) = true ↔
      (v.minV a - c.r ≤ v.idxV a ri ∧ v.idxV a ri ≤ v.maxV a + c.r) := by
    intro v
    simp [guard_cond, evalC, evalE, Bool.and_eq_true, decide_eq_true_iff]
  refine ⟨?_, mapper_get? hri, rfl, h4, ?_, ?_, ?_⟩
  · intro idims
    exact List.mem_append.mpr (Or.inr (index_temp_mem ha hri))
  · intro v hv
    cases hev : evalC v (guard_cond c a ri) with
    | false => rfl
    | true =>
      exfalso
      have hb := (h4 v).mp hev
      rcases hv with h | h
      · linarith [hb.1]
      · linarith [hb.2]
  · intro expr offset inc idims out hok
    exact interpolate_out_guarded hok
  · intro field expr offset idims out hok
    exact inject_out_guarded hok

/-- A concrete valuation placing the bound index symbols at value `20` on a
grid whose axes run from `0` to `10`. -/
def vOutside : Valuation :=
  ⟨fun _ => 0, fun _ => 0, fun _ => 0, fun _ => 0, fun _ _ => 20, 0, 0,
   fun _ => 0, fun _ => 10, fun _ => 1, fun _ _ => 0, fun _ => 0, fun _ _ => 0⟩

/-- Witness for C1 on a 1-d radius-1 configuration: the conditional
dimension for axis 0, offset position 1 carries the guard, and the guard
evaluates false at index value 20 on a grid with `max = 10`, `r = 1`. -/
theorem C1_index_equations_and_oob_guards_witness :
    (mapper ⟨"src", 1, 1, false, []⟩ SchemeKind.linear 0).get? 1
        = some ⟨0, 1, guard_cond ⟨"src", 1, 1, false, []⟩ 0 1, true⟩
    ∧ evalC vOutside (guard_cond ⟨"src", 1, 1, false, []⟩ 0 1) = false :=
  ⟨(C1_index_equations_and_oob_guards ⟨"src", 1, 1, false, []⟩ SchemeKind.linear 0 1
      (by decide) (by decide)).2.1,
   (C1_index_equations_and_oob_guards ⟨"src", 1, 1, false, []⟩ SchemeKind.linear 0 1
      (by decide) (by decide)).2.2.2.2.1 vOutside (Or.inr (by norm_num [vOutside]))⟩

theorem seqMap_some_get? {f : α → Option β} {l : List α} {bs : List β}
    (h : seqMap f l = some bs) {i : Nat} {a : α} {b : β}
    (ha : l.get? i = some a) (hb : bs.get? i = some b) : f a = some b := by
  obtain ⟨hia, hga⟩ := List.get?_eq_some.mp ha
  obtain ⟨hib, hgb⟩ := List.get?_eq_some.mp hb
  have hg := seqMap_some_get h i hia hib
  rw [hga, hgb] at hg
  exact hg

theorem interp_points_nodup (c : Config) (k : SchemeKind) :
    (interp_points c k).Nodup := by
  cases k with
  | linear => exact nodup_intRange _ _
  | precomputed => exact nodup_intRange _ _

/-- C2: the combined neighbor-weight list and the per-neighbor substitution
list have the same length (`(len offsets)^d`), and entry `k` of each is
generated from the same neighbor offset tuple — the `k`-th tuple of the
cartesian product `_nd_points`, which enumerates every neighbor combination
exactly once in product iteration order. -/
theorem C2_weights_align_with_substitutions (c : Config) (k : SchemeKind)
    (vars : List GridFn) (ws : List Expr) (ss : List (List (GridFn × List AIdx)))
    (hws : interpolation_coeffs c k = some ws)
    (hss : idx_subs c k vars = some ss) :
    ws.length = ss.length
    ∧ ws.length = (interp_points c k).length ^ c.d
    ∧ (∀ i p w, (nd_points c k).get? i = some p → ws.get? i = some w →
          coeff_of c k p = some w)
    ∧ (∀ i p s, (nd_points c k).get? i = some p → ss.get? i = some s →
          seqMap (fun v => (sub_for c k v p).map (fun l => (v, l))) vars = some s)
    ∧ (nd_points c k).Nodup
    ∧ (∀ q : List Int, q ∈ nd_points c k ↔
          (q.length = c.d ∧ ∀ x ∈ q, x ∈ interp_points c k)) := by
  have h1 := seqMap_some_length hws
  have h2 := seqMap_some_length hss
  refine ⟨by rw [h1, h2], by rw [h1]; exact length_ndPoints _ _, ?_, ?_, ?_, ?_⟩
  · intro i p w hp hw
    exact seqMap_some_get? hws hp hw
  · intro i p s hp hs
    exact seqMap_some_get? hss hp hs
  · exact nodup_ndPoints (interp_points_nodup c k) _
  · intro q
    exact mem_ndPoints

/-- The 2-d, radius-1 configuration used by the concrete witnesses. -/
def c2w : Config := ⟨"src", 2, 1, false, []⟩

/-- A plain unstaggered grid function. -/
def uFn : GridFn := ⟨"u", []⟩

/-- The two per-axis linear weights (offset 0 and offset 1). -/
def wlin (a i : Nat) : Expr :=
  if i = 0 then Expr.sub (Expr.const 1) (Expr.div (Expr.psym a) (Expr.spacing a))
  else Expr.div (Expr.psym a) (Expr.spacing a)

/-- The four combined bilinear neighbor weights, in product iteration
order. -/
def ws4 : List Expr :=
  [Expr.mul (wlin 0 0) (wlin 1 0), Expr.mul (wlin 0 0) (wlin 1 1),
   Expr.mul (wlin 0 1) (wlin 1 0), Expr.mul (wlin 0 1) (wlin 1 1)]

/-- The four per-neighbor substitution dictionaries for `uFn`, in product
iteration order. -/
def ss4 : List (List (GridFn × List AIdx)) :=
  [[(uFn, [AIdx.guarded 0 0 0, AIdx.guarded 1 0 0])],
   [(uFn, [AIdx.guarded 0 0 0, AIdx.guarded 1 1 0])],
   [(uFn, [AIdx.guarded 0 1 0, AIdx.guarded 1 0 0])],
   [(uFn, [AIdx.guarded 0 1 0, AIdx.guarded 1 1 0])]]

/-- Witness for C2 on the 2-d radius-1 bilinear configuration with one
variable: both lists have length 4 and neighbor 1 (offset tuple `(0, 1)`)
pairs weight `w00 * w11` with its substitution. -/
theorem C2_weights_align_with_substitutions_witness :
    ws4.length = ss4.length
    ∧ (nd_points c2w SchemeKind.linear).Nodup
    ∧ coeff_of c2w SchemeKind.linear [0, 1] = some (Expr.mul (wlin 0 0) (wlin 1 1)) :=
  ⟨(C2_weights_align_with_substitutions c2w SchemeKind.linear [uFn] ws4 ss4
      (by decide) (by decide)).1,
   (C2_weights_align_with_substitutions c2w SchemeKind.linear [uFn] ws4 ss4
      (by decide) (by decide)).2.2.2.2.1,
   (C2_weights_align_with_substitutions c2w SchemeKind.linear [uFn] ws4 ss4
      (by decide) (by decide)).2.2.1 1 [0, 1] (Expr.mul (wlin 0 0) (wlin 1 1))
      (by decide) (by decide)⟩

/-! ### Partition of unity for the analytic-linear scheme -/

theorem eval_foldl_mul (v : Valuation) :
    ∀ (l : List Expr) (acc : Expr),
      evalE v (l.foldl Expr.mul acc) = evalE v acc * (l.map (evalE v)).prod := by
  intro l
  induction l with
  | nil => intro acc; simp
  | cons e es ih =>
    intro acc
    simp only [List.foldl_cons, ih, List.map_cons, List.prod_cons]
    show evalE v acc * evalE v e * _ = _
    ring

theorem eval_listProd (v : Valuation) (l : List Expr) :
    evalE v (listProd l) = (l.map (evalE v)).prod := by
  cases l with
  | nil => simp [listProd, evalE]
  | cons e es =>
    show evalE v (es.foldl Expr.mul e) = _
    rw [eval_foldl_mul]
    simp

theorem sum_flatMapQ (h : α → List ℚ) :
    ∀ l : List α, (l.flatMap h).sum = (l.map (fun a => (h a).sum)).sum := by
  intro l
  induction l with
  | nil => rfl
  | cons x xs ih => simp [List.flatMap_cons, List.sum_append, ih]

theorem sum_ndPoints_prod (g : Nat → Int → ℚ) (pts : List Int) :
    ∀ axes : List Nat,
      ((ndPoints pts axes.length).map
          (fun p => ((axes.zip p).map (fun ai => g ai.1 ai.2)).prod)).sum
        = (axes.map (fun a => (pts.map (g a)).sum)).prod := by
  intro axes
  induction axes with
  | nil => simp [ndPoints]
  | cons a as ih =>
    show ((ndPoints pts (as.length + 1)).map _).sum = _
    rw [ndPoints, List.map_flatMap, sum_flatMapQ]
    have hx : ∀ x : Int,
        ((((ndPoints pts as.length).map (fun t => x :: t)).map
            (fun p => (((a :: as).zip p).map (fun ai => g ai.1 ai.2)).prod)).sum)
          = g a x * ((ndPoints pts as.length).map
              (fun t => ((as.zip t).map (fun ai => g ai.1 ai.2)).prod)).sum := by
      intro x
      rw [List.map_map, ← List.sum_map_mul_left]
      refine congrArg List.sum ?_
      refine List.map_congr_left ?_
      intro t _
      show (((a :: as).zip (x :: t)).map (fun ai => g ai.1 ai.2)).prod
          = g a x * ((as.zip t).map (fun ai => g ai.1 ai.2)).prod
      rw [List.zip_cons_cons, List.map_cons, List.prod_cons]
    have hmap : pts.map (fun x =>
          (((ndPoints pts as.length).map (fun t => x :: t)).map
            (fun p => (((a :: as).zip p).map (fun ai => g ai.1 ai.2)).prod)).sum)
        = pts.map (fun x => g a x * ((ndPoints pts as.length).map
            (fun t => ((as.zip t).map (fun ai => g ai.1 ai.2)).prod)).sum) :=
      List.map_congr_left (fun x _ => hx x)
    rw [hmap, List.sum_map_mul_right, ih]
    simp [List.prod_cons]

/-- The evaluated per-axis linear weight at offset `0` resp. `1`. -/
def linW (v : Valuation) (a : Nat) (i : Int) : ℚ :=
  if i = 0 then 1 - v.psymV a / v.spacingV a else v.psymV a / v.spacingV a

theorem pyGet_linear_weights (c : Config) (a : Nat) (v : Valuation) {i : Int}
    (hi : i = 0 ∨ i = 1) :
    ∃ w, pyGet (weights c SchemeKind.linear a) i = some w ∧ evalE v w = linW v a i := by
  rcases hi with rfl | rfl
  · exact ⟨Expr.sub (Expr.const 1) (Expr.div (Expr.psym a) (Expr.spacing a)), rfl,
      by simp [linW, evalE]⟩
  · exact ⟨Expr.div (Expr.psym a) (Expr.spacing a), rfl, by simp [linW, evalE]⟩

theorem coeff_of_linear_eval (c : Config) (v : Valuation) {p : List Int} {w : Expr}
    (hp : ∀ x ∈ p, x = 0 ∨ x = 1)
    (hw : coeff_of c SchemeKind.linear p = some w) :
    evalE v w
      = (((List.range c.d).zip p).map (fun ai => linW v ai.1 ai.2)).prod := by
  unfold coeff_of at hw
  cases hs : seqMap (fun ai => pyGet (weights c SchemeKind.linear ai.1) ai.2)
      ((List.range c.d).zip p) with
  | none => rw [hs] at hw; exact absurd hw (by simp)
  | some fs =>
    rw [hs] at hw
    have hwe : listProd fs = w := Option.some.inj hw
    subst hwe
    rw [eval_listProd]
    refine congrArg List.prod ?_
    apply List.ext_getElem
    · rw [List.length_map, List.length_map, seqMap_some_length hs]
    · intro i h1 h2
      rw [List.getElem_map, List.getElem_map]
      have hi1 : i < fs.length := by simpa using h1
      have hi2 : i < ((List.range c.d).zip p).length := by simpa using h2
      have hpl : i < p.length := by simp at hi2; omega
      have hget := seqMap_some_get hs i hi2 hi1
      have hzip : ((List.range c.d).zip p).get ⟨i, hi2⟩ = (i, p[i]) := by
        rw [List.get_eq_getElem, List.getElem_zip]
        simp
      rw [hzip] at hget
      simp only at hget
      have hpi : p[i] = 0 ∨ p[i] = 1 := hp _ (List.getElem_mem hpl)
      obtain ⟨w2, hw2, hev2⟩ := pyGet_linear_weights c i v hpi
      rw [hw2] at hget
      have hfs : w2 = fs.get ⟨i, hi1⟩ := Option.some.inj hget
      have hzip2 : ((List.range c.d).zip p)[i] = ((i : Nat), p[i]) := by
        rw [List.getElem_zip]
        simp
      rw [hzip2]
      show evalE v (fs.get ⟨i, hi1⟩) = linW v i p[i]
      rw [← hfs]
      exact hev2

theorem coeffs_eval_sum_one (c : Config) (hr : c.r = 1) (v : Valuation)
    {ws : List Expr} (hws : interpolation_coeffs c SchemeKind.linear = some ws) :
    (ws.map (evalE v)).sum = 1 := by
  have hpts : interp_points c SchemeKind.linear = [0, 1] := by
    show intRange (-(c.r : Int) + 1) ((c.r : Int) + 1) = [0, 1]
    rw [hr]
    decide
  have hmap : ws.map (evalE v)
      = (nd_points c SchemeKind.linear).map
          (fun p => (((List.range c.d).zip p).map (fun ai => linW v ai.1 ai.2)).prod) := by
    apply List.ext_getElem
    · rw [List.length_map, List.length_map, seqMap_some_length hws]
    · intro i h1 h2
      rw [List.getElem_map, List.getElem_map]
      have hi1 : i < ws.length := by simpa using h1
      have hi2 : i < (nd_points c SchemeKind.linear).length := by simpa using h2
      have hget := seqMap_some_get hws i hi2 hi1
      have hmem : (nd_points c SchemeKind.linear).get ⟨i, hi2⟩
          ∈ nd_points c SchemeKind.linear := List.get_mem _ _ _
      have hp : ∀ x ∈ (nd_points c SchemeKind.linear).get ⟨i, hi2⟩, x = 0 ∨ x = 1 := by
        intro x hx
        have := (mem_ndPoints.mp hmem).2 x hx
        rw [hpts] at this
        simpa using this
      exact coeff_of_linear_eval c v hp hget
  rw [hmap]
  have hinter := sum_ndPoints_prod (linW v) (interp_points c SchemeKind.linear)
    (List.range c.d)
  rw [List.length_range] at hinter
  rw [show nd_points c SchemeKind.linear
        = ndPoints (interp_points c SchemeKind.linear) c.d from rfl]
  rw [hinter, hpts]
  refine List.prod_eq_one ?_
  intro x hx
  obtain ⟨a, _, rfl⟩ := List.mem_map.mp hx
  show ([(0 : Int), 1].map (linW v a)).sum = 1
  simp [linW]

/-- The valuation of the concrete 2-d scenario: spacing `h = 1`, local
fractional position `p = (0.3, 0.7)`. -/
def v3 : Valuation :=
  ⟨fun _ => 0, fun _ => 0, fun _ => 0,
   fun a => if a = 0 then 3/10 else 7/10,
   fun _ _ => 0, 0, 0, fun _ => 0, fun _ => 0, fun _ => 1,
   fun _ _ => 0, fun _ => 0, fun _ _ => 0⟩

/-- C3: the analytic-linear scheme's two per-axis weights are
`{1 - p/h, p/h}`, paired with offsets `{0, 1}` (the offset range at radius 1,
and the offset used as the list index selecting the weight); the combined
neighbor weights sum to 1 under every valuation of the local coordinates;
and on the concrete 2-d grid with `h = 1` and point `(0.3, 0.7)` the four
neighbor weights are `[0.21, 0.49, 0.09, 0.21]`, summing to `1.0`. -/
theorem C3_linear_weights_and_partition_of_unity (c : Config) (a : Nat)
    (v : Valuation) (hr : c.r = 1) :
    weights c SchemeKind.linear a
        = [Expr.sub (Expr.const 1) (Expr.div (Expr.psym a) (Expr.spacing a)),
           Expr.div (Expr.psym a) (Expr.spacing a)]
    ∧ interp_points c SchemeKind.linear = [0, 1]
    ∧ pyGet (weights c SchemeKind.linear a) 0
        = some (Expr.sub (Expr.const 1) (Expr.div (Expr.psym a) (Expr.spacing a)))
    ∧ pyGet (weights c SchemeKind.linear a) 1
        = some (Expr.div (Expr.psym a) (Expr.spacing a))
    ∧ (∀ ws, interpolation_coeffs c SchemeKind.linear = some ws →
          (ws.map (evalE v)).sum = 1)
    ∧ interpolation_coeffs c2w SchemeKind.linear = some ws4
    ∧ ws4.map (evalE v3) = [21/100, 49/100, 9/100, 21/100]
    ∧ (ws4.map (evalE v3)).sum = 1 := by
  have hmap43 : ws4.map (evalE v3) = [21/100, 49/100, 9/100, 21/100] := by
    simp only [ws4, wlin, List.map_cons, List.map_nil, evalE, v3]
    norm_num
  refine ⟨rfl, ?_, rfl, rfl, ?_, by decide, hmap43, by rw [hmap43]; norm_num⟩
  · show intRange (-(c.r : Int) + 1) ((c.r : Int) + 1) = [0, 1]
    rw [hr]
    decide
  · intro ws hws
    exact coeffs_eval_sum_one c hr v hws

/-- Witness for C3 on the 2-d radius-1 configuration with the concrete
point `(0.3, 0.7)` and spacing `1`. -/
theorem C3_linear_weights_and_partition_of_unity_witness :
    interp_points c2w SchemeKind.linear = [0, 1]
    ∧ ws4.map (evalE v3) = [21/100, 49/100, 9/100, 21/100]
    ∧ (ws4.map (evalE v3)).sum = 1 :=
  ⟨(C3_linear_weights_and_partition_of_unity c2w 0 v3 rfl).2.1,
   (C3_linear_weights_and_partition_of_unity c2w 0 v3 rfl).2.2.2.2.2.2.1,
   (C3_linear_weights_and_partition_of_unity c2w 0 v3 rfl).2.2.2.2.2.2.2⟩

/-! ### C7: neighbor-weight count of the analytic-linear scheme -/

/-- Number of multiplicative leaves of an expression (the args of the sympy
`Mul` that `prod` builds). -/
def mulFactors : Expr → Nat
  | Expr.mul a b => mulFactors a + mulFactors b
  | _ => 1

theorem mulFactors_foldl :
    ∀ (l : List Expr) (acc : Expr),
      mulFactors (l.foldl Expr.mul acc) = mulFactors acc + (l.map mulFactors).sum := by
  intro l
  induction l with
  | nil => intro acc; simp
  | cons e es ih =>
    intro acc
    simp only [List.foldl_cons, ih, List.map_cons, List.sum_cons]
    show mulFactors acc + mulFactors e + _ = _
    omega

theorem mulFactors_listProd {l : List Expr} (h : ∀ e ∈ l, mulFactors e = 1)
    (hne : l ≠ []) : mulFactors (listProd l) = l.length := by
  cases l with
  | nil => exact absurd rfl hne
  | cons e es =>
    show mulFactors (es.foldl Expr.mul e) = es.length + 1
    rw [mulFactors_foldl, h e (by simp)]
    have hsum : (es.map mulFactors).sum = es.length := by
      have he : es.map mulFactors = es.map (fun _ => 1) :=
        List.map_congr_left (fun x hx => h x (by simp [hx]))
      rw [he, sum_map_fixed]
      omega
    omega

/-- Counterexample to C7 as stated ("for every radius r"): at radius `2` on
a 1-d grid, the analytic-linear scheme raises `IndexError` (offset `2`
indexes the two-element per-axis weight list `_weights[d][i]`), so it
produces no weight list at all — not `2^d` weights — and forcing
`interpolate` fails. -/
theorem C7_counterexample_radius_two :
    interpolation_coeffs ⟨"src", 1, 2, false, []⟩ SchemeKind.linear = none
    ∧ interpolate_cb ⟨"src", 1, 2, false, []⟩ SchemeKind.linear
        (Expr.access uFn [AIdx.dense 0]) 0 false [] = Except.error "IndexError" := by
  constructor
  · decide
  · rfl

/-- C7 amended: for every grid dimension `d ≥ 1` and radius `1` (the only
radius the two-entry analytic-linear weight list supports), the scheme
produces exactly `2^d` neighbor weights, each a product of exactly `d`
per-axis factors. -/
theorem C7_linear_weight_count_radius_one (c : Config) (hr : c.r = 1)
    (hd : 0 < c.d) :
    ∃ ws, interpolation_coeffs c SchemeKind.linear = some ws
      ∧ ws.length = 2 ^ c.d
      ∧ ∀ w ∈ ws, mulFactors w = c.d := by
  have hpts : interp_points c SchemeKind.linear = [0, 1] := by
    show intRange (-(c.r : Int) + 1) ((c.r : Int) + 1) = [0, 1]
    rw [hr]
    decide
  have hexist : ∃ ws, interpolation_coeffs c SchemeKind.linear = some ws := by
    refine seqMap_isSome ?_
    intro p hp
    have hpmem := mem_ndPoints.mp hp
    unfold coeff_of
    have hin : ∃ fs, seqMap (fun ai => pyGet (weights c SchemeKind.linear ai.1) ai.2)
        ((List.range c.d).zip p) = some fs := by
      refine seqMap_isSome ?_
      intro ai hai
      have hpi : ai.2 ∈ p := (List.of_mem_zip hai).2
      have h01 : ai.2 = 0 ∨ ai.2 = 1 := by
        have := hpmem.2 ai.2 hpi
        rw [hpts] at this
        simpa using this
      rcases h01 with h0 | h0 <;> rw [h0] <;> rfl
    obtain ⟨fs, hfs⟩ := hin
    rw [hfs]
    rfl
  obtain ⟨ws, hws⟩ := hexist
  refine ⟨ws, hws, ?_, ?_⟩
  · rw [seqMap_some_length hws]
    show (ndPoints (interp_points c SchemeKind.linear) c.d).length = 2 ^ c.d
    rw [length_ndPoints, hpts]
    rfl
  · intro w hw
    obtain ⟨p, hp, hcw⟩ := seqMap_some_mem hws w hw
    have hpmem := mem_ndPoints.mp hp
    unfold coeff_of at hcw
    cases hs : seqMap (fun ai => pyGet (weights c SchemeKind.linear ai.1) ai.2)
        ((List.range c.d).zip p) with
    | none => rw [hs] at hcw; exact absurd hcw (by simp)
    | some fs =>
      rw [hs] at hcw
      have hwe : listProd fs = w := Option.some.inj hcw
      subst hwe
      have hflen : fs.length = c.d := by
        rw [seqMap_some_length hs, List.length_zip, List.length_range, hpmem.1]
        omega
      rw [mulFactors_listProd ?_ ?_]
      · exact hflen
      · intro e he
        obtain ⟨ai, _, hai⟩ := seqMap_some_mem hs e he
        have hmem := pyGet_mem hai
        simp only [weights, List.mem_cons, List.not_mem_nil, or_false] at hmem
        rcases hmem with rfl | rfl <;> rfl
      · intro hnil
        rw [hnil] at hflen
        simp at hflen
        omega

/-- Witness for the amended C7 on the 2-d radius-1 configuration: four
neighbor weights, each with two factors. -/
theorem C7_linear_weight_count_radius_one_witness :
    interpolation_coeffs c2w SchemeKind.linear = some ws4
    ∧ ws4.length = 2 ^ 2
    ∧ ∀ w ∈ ws4, mulFactors w = 2 := by
  obtain ⟨ws, hws, hlen, hfac⟩ := C7_linear_weight_count_radius_one c2w rfl (by decide)
  have h2 : interpolation_coeffs c2w SchemeKind.linear = some ws4 := by decide
  rw [hws] at h2
  have he := Option.some.inj h2
  subst he
  exact ⟨hws, hlen, hfac⟩

/-! ### Definitions-before-uses in the interpolate output -/

/-- The scalar temporary an equation defines, when its lhs is one of the
symbols the callbacks introduce (position values, point symbols, index
symbols, the accumulator); field writes and external symbols define no
tracked temporary. -/
def defTarget (e : Equation) : Option Expr :=
  match e.lhs with
  | Expr.posVal a => some (Expr.posVal a)
  | Expr.psym a => some (Expr.psym a)
  | Expr.idx a ri => some (Expr.idx a ri)
  | Expr.sumAcc => some Expr.sumAcc
  | _ => none

/-- Tracked symbols read by an access index (a guarded dimension reads its
bound index symbol). -/
def usedSymsA : AIdx → List Expr
  | AIdx.dense _ => []
  | AIdx.guarded a ri _ => [Expr.idx a ri]

/-- Tracked symbols read by an expression. -/
def usedSyms : Expr → List Expr
  | Expr.posVal a => [Expr.posVal a]
  | Expr.psym a => [Expr.psym a]
  | Expr.idx a ri => [Expr.idx a ri]
  | Expr.sumAcc => [Expr.sumAcc]
  | Expr.add a b => usedSyms a ++ usedSyms b
  | Expr.sub a b => usedSyms a ++ usedSyms b
  | Expr.mul a b => usedSyms a ++ usedSyms b
  | Expr.div a b => usedSyms a ++ usedSyms b
  | Expr.intFloor a => usedSyms a
  | Expr.access _ idxs => idxs.flatMap usedSymsA
  | _ => []

/-- Tracked symbols an equation reads: the rhs always; the lhs too when the
equation is an increment (read-modify-write) or a field write (whose index
expressions are read). -/
def eqUses (e : Equation) : List Expr :=
  (match e.kind with
   | EqKind.increment => usedSyms e.lhs
   | EqKind.assign =>
     match e.lhs with
     | Expr.access f idxs => usedSyms (Expr.access f idxs)
     | _ => []) ++ usedSyms e.rhs

/-- Every tracked symbol that an equation of the list reads and that is
defined anywhere in the list is defined by a strictly earlier equation. -/
def defBeforeUse (eqs : List Equation) : Prop :=
  ∀ i (hi : i < eqs.length), ∀ s ∈ eqUses (eqs.get ⟨i, hi⟩),
    (∃ j, ∃ hj : j < eqs.length, defTarget (eqs.get ⟨j, hj⟩) = some s) →
    ∃ j, ∃ hj : j < eqs.length, j < i ∧ defTarget (eqs.get ⟨j, hj⟩) = some s

theorem eqUses_positions {c : Config} {k : SchemeKind} {idims : List Nat} :
    ∀ eq ∈ positions c k idims, eqUses eq = [] := by
  intro eq heq
  unfold positions at heq
  cases k with
  | linear =>
    obtain ⟨a, _, rfl⟩ := List.mem_map.mp heq
    rfl
  | precomputed =>
    by_cases hg : c.gridpoints
    · rw [if_pos hg] at heq
      exact absurd heq (by simp)
    · rw [if_neg hg] at heq
      obtain ⟨a, _, rfl⟩ := List.mem_map.mp heq
      rfl

theorem eqUses_index_temps {c : Config} {k : SchemeKind} {idims : List Nat} :
    ∀ eq ∈ index_temps c k idims, eqUses eq = [] := by
  intro eq heq
  unfold index_temps at heq
  obtain ⟨a, _, hmem⟩ := List.mem_flatMap.mp heq
  obtain ⟨rioff, _, rfl⟩ := List.mem_map.mp hmem
  rfl

theorem get_append_first {l1 l2 : List α} {i : Nat} (hi1 : i < l1.length)
    (hi : i < (l1 ++ l2).length) :
    (l1 ++ l2).get ⟨i, hi⟩ = l1.get ⟨i, hi1⟩ := by
  rw [List.get_eq_getElem, List.get_eq_getElem, List.getElem_append_left hi1]

theorem get_append_suffix {l1 l2 : List α} {i : Nat} (hi1 : l1.length ≤ i)
    (hi : i < (l1 ++ l2).length) :
    (l1 ++ l2).get ⟨i, hi⟩
      = l2.get ⟨i - l1.length, by simp at hi; omega⟩ := by
  rw [List.get_eq_getElem, List.get_eq_getElem, List.getElem_append_right hi1]

theorem get_suffix_mem {l1 l2 : List α} {i : Nat} (hi1 : l1.length ≤ i)
    (hi : i < (l1 ++ l2).length) :
    (l1 ++ l2).get ⟨i, hi⟩ ∈ l2 := by
  rw [get_append_suffix hi1]
  exact List.get_mem _ _ _

theorem positions_linear_get {c : Config} {idims : List Nat} {a : Nat}
    (ha : a < (positions c SchemeKind.linear idims).length) :
    (positions c SchemeKind.linear idims).get ⟨a, ha⟩
      = ⟨EqKind.assign, Expr.posVal a, Expr.coordKey a, idims⟩ := by
  unfold positions at ha ⊢
  rw [List.get_eq_getElem, List.getElem_map, List.getElem_range]

theorem coeff_temps_linear_get {c : Config} {idims : List Nat} {a : Nat}
    (ha : a < (coeff_temps c SchemeKind.linear idims).length) :
    (coeff_temps c SchemeKind.linear idims).get ⟨a, ha⟩
      = ⟨EqKind.assign, Expr.psym a,
         Expr.sub (Expr.posVal a)
           (Expr.mul (Expr.spacing a)
             (Expr.intFloor (Expr.div (Expr.posVal a) (Expr.spacing a)))), idims⟩ := by
  unfold coeff_temps at ha ⊢
  rw [List.get_eq_getElem, List.getElem_map, List.getElem_range]

theorem positions_linear_length {c : Config} {idims : List Nat} :
    (positions c SchemeKind.linear idims).length = c.d := by
  unfold positions
  simp

theorem coeff_temps_linear_length {c : Config} {idims : List Nat} :
    (coeff_temps c SchemeKind.linear idims).length = c.d := by
  unfold coeff_temps
  simp

/-- Definitions precede uses in any list of the shape the interpolate
callback produces: position temporaries `P` and index temporaries `X` read
no tracked symbol; each coefficient temporary `C[a]` reads only a symbol
already defined by `P[a]`; the zero-initialisation `z` defines the
accumulator read by the increments and the final write. -/
theorem defBeforeUse_structured (P C X incs : List Equation) (z fin2 : Equation)
    (hP : ∀ eq ∈ P, eqUses eq = [])
    (hX : ∀ eq ∈ X, eqUses eq = [])
    (hz1 : eqUses z = [])
    (hz2 : defTarget z = some Expr.sumAcc)
    (hincs : ∀ eq ∈ incs, defTarget eq = some Expr.sumAcc)
    (hfin : defTarget fin2 = none)
    (hCuse : ∀ a (ha : a < C.length), ∃ s0,
        (∀ s ∈ eqUses (C.get ⟨a, ha⟩), s = s0)
        ∧ ∃ hP2 : a < P.length, defTarget (P.get ⟨a, hP2⟩) = some s0) :
    defBeforeUse (P ++ C ++ X ++ (z :: incs) ++ [fin2]) := by
  intro i hi s hs hdef
  have hT : (P ++ C ++ X).length = P.length + C.length + X.length := by
    simp
    omega
  have hL : (P ++ C ++ X ++ (z :: incs) ++ [fin2]).length
      = P.length + C.length + X.length + (incs.length + 1) + 1 := by
    simp
    omega
  have hTL : (P ++ C ++ X).length < (P ++ C ++ X ++ (z :: incs) ++ [fin2]).length := by
    omega
  have hzget : (P ++ C ++ X ++ (z :: incs) ++ [fin2]).get
      ⟨(P ++ C ++ X).length, hTL⟩ = z := by
    have h1 : (P ++ C ++ X).length < ((P ++ C ++ X) ++ (z :: incs)).length := by
      simp
    rw [get_append_first h1, get_append_suffix (Nat.le_refl _)]
    simp
  by_cases hiT : i < (P ++ C ++ X).length
  · -- temporaries region: analyse which temporary this is
    have h1 : i < ((P ++ C ++ X) ++ (z :: incs)).length := by simp; omega
    rw [get_append_first h1, get_append_first hiT] at hs
    by_cases hiPC : i < (P ++ C).length
    · rw [get_append_first hiPC] at hs
      by_cases hiP : i < P.length
      · rw [get_append_first hiP] at hs
        rw [hP _ (List.get_mem _ _ _)] at hs
        exact absurd hs (by simp)
      · rw [get_append_suffix (Nat.le_of_not_lt hiP)] at hs
        have hiC : i - P.length < C.length := by simp at hiPC; omega
        obtain ⟨s0, huse, hP2, hdef0⟩ := hCuse (i - P.length) hiC
        have hs0 : s = s0 := huse s hs
        subst hs0
        have hjL : i - P.length < (P ++ C ++ X ++ (z :: incs) ++ [fin2]).length := by
          omega
        refine ⟨i - P.length, hjL, by omega, ?_⟩
        have ha1 : i - P.length < ((P ++ C ++ X) ++ (z :: incs)).length := by
          simp
          omega
        have ha2 : i - P.length < (P ++ C ++ X).length := by omega
        have ha3 : i - P.length < (P ++ C).length := by simp; omega
        rw [get_append_first ha1, get_append_first ha2, get_append_first ha3,
          get_append_first hP2]
        exact hdef0
    · rw [get_append_suffix (Nat.le_of_not_lt hiPC)] at hs
      rw [hX _ (List.get_mem _ _ _)] at hs
      exact absurd hs (by simp)
  · by_cases hiz : i = (P ++ C ++ X).length
    · -- the zero-initialisation reads nothing
      subst hiz
      rw [hzget] at hs
      rw [hz1] at hs
      exact absurd hs (by simp)
    · -- increments / final write: every defined symbol is defined earlier
      obtain ⟨j, hj, hdj⟩ := hdef
      by_cases hjT : j < (P ++ C ++ X).length
      · exact ⟨j, hj, by omega, hdj⟩
      · have hs2 : s = Expr.sumAcc := by
          by_cases hjZ : j < ((P ++ C ++ X) ++ (z :: incs)).length
          · rw [get_append_first hjZ] at hdj
            have hmem := get_suffix_mem (Nat.le_of_not_lt hjT) hjZ
            rcases List.mem_cons.mp hmem with hez | hei
            · rw [hez, hz2] at hdj
              exact (Option.some.inj hdj).symm
            · rw [hincs _ hei] at hdj
              exact (Option.some.inj hdj).symm
          · have hmem := get_suffix_mem (Nat.le_of_not_lt hjZ) hj
            have hef := List.mem_singleton.mp hmem
            rw [hef, hfin] at hdj
            exact absurd hdj (by simp)
        subst hs2
        exact ⟨(P ++ C ++ X).length, hTL, by omega, by rw [hzget]; exact hz2⟩

theorem interpolate_defBeforeUse {c : Config} {k : SchemeKind} {expr : Expr}
    {offset : ℚ} {inc : Bool} {idims : List Nat} {out : List Equation}
    (h : interpolate_cb c k expr offset inc idims = Except.ok out) :
    defBeforeUse out := by
  obtain ⟨ss, cs, hss, hcs, ho⟩ := interpolate_cb_ok_shape h
  subst ho
  have hmain := defBeforeUse_structured
    (positions c k (full_idims c idims)) (coeff_temps c k (full_idims c idims))
    (index_temps c k (full_idims c idims))
    ((subs_coords expr cs ss).map (fun i =>
      (⟨EqKind.increment, Expr.sumAcc, i, full_idims c idims⟩ : Equation)))
    (⟨EqKind.assign, Expr.sumAcc, Expr.const 0, full_idims c idims⟩ : Equation)
    (⟨if inc then EqKind.increment else EqKind.assign,
      Expr.sparseAcc, Expr.sumAcc, full_idims c idims⟩ : Equation)
    eqUses_positions eqUses_index_temps rfl rfl
    (by
      intro e he
      obtain ⟨_, _, rfl⟩ := List.mem_map.mp he
      rfl)
    rfl
    (by
      intro a ha
      cases k with
      | precomputed => exact absurd ha (by simp [coeff_temps])
      | linear =>
        refine ⟨Expr.posVal a, ?_, ?_⟩
        · intro s hsuse
          rw [coeff_temps_linear_get] at hsuse
          have hsuse2 : s ∈ [Expr.posVal a, Expr.posVal a] := hsuse
          rcases List.mem_cons.mp hsuse2 with h1 | h1
          · exact h1
          · exact List.mem_singleton.mp h1
        · have hP2 : a < (positions c SchemeKind.linear
              (full_idims c idims)).length := by
            rw [positions_linear_length]
            rw [coeff_temps_linear_length] at ha
            exact ha
          refine ⟨hP2, ?_⟩
          rw [positions_linear_get]
          rfl)
  exact hmain

theorem all_temps_lhs_not_access {c : Config} {k : SchemeKind} {idims : List Nat} :
    ∀ eq ∈ all_temps c k idims, ∀ f idxs, eq.lhs ≠ Expr.access f idxs := by
  intro eq heq f idxs
  unfold all_temps at heq
  rcases List.mem_append.mp heq with h2 | hidx
  · rcases List.mem_append.mp h2 with hpos | hcoef
    · unfold positions at hpos
      cases k with
      | linear =>
        obtain ⟨a, _, rfl⟩ := List.mem_map.mp hpos
        simp
      | precomputed =>
        by_cases hg : c.gridpoints
        · rw [if_pos hg] at hpos
          exact absurd hpos (by simp)
        · rw [if_neg hg] at hpos
          obtain ⟨a, _, rfl⟩ := List.mem_map.mp hpos
          simp
    · unfold coeff_temps at hcoef
      cases k with
      | linear =>
        obtain ⟨a, _, rfl⟩ := List.mem_map.mp hcoef
        simp
      | precomputed => exact absurd hcoef (by simp)
  · unfold index_temps at hidx
    obtain ⟨a, _, hmem⟩ := List.mem_flatMap.mp hidx
    obtain ⟨rioff, _, rfl⟩ := List.mem_map.mp hmem
    simp

/-- C4: forcing `interpolate` yields, in exactly this order: the
index/position/coefficient-defining temporaries, then one equation
initialising the fresh scalar accumulator to zero, then one accumulator
increment per neighbor combination in neighbor order, then a single final
equation writing the sparse function from the accumulator (an `Inc` when
`increment=True`, else an `Eq`); and every definition precedes its uses. -/
theorem C4_interpolate_equation_order (c : Config) (k : SchemeKind) (expr : Expr)
    (offset : ℚ) (inc : Bool) (idims : List Nat) (out : List Equation)
    (h : interpolate_cb c k expr offset inc idims = Except.ok out) :
    ∃ ss cs,
      idx_subs c k (retrieve_function_carriers expr) = some ss
      ∧ interpolation_coeffs c k = some cs
      ∧ out = all_temps c k (full_idims c idims)
          ++ [⟨EqKind.assign, Expr.sumAcc, Expr.const 0, full_idims c idims⟩]
          ++ (subs_coords expr cs ss).map (fun e =>
                (⟨EqKind.increment, Expr.sumAcc, e, full_idims c idims⟩ : Equation))
          ++ [⟨(if inc then EqKind.increment else EqKind.assign),
               Expr.sparseAcc, Expr.sumAcc, full_idims c idims⟩]
      ∧ (subs_coords expr cs ss).length = (interp_points c k).length ^ c.d
      ∧ defBeforeUse out := by
  obtain ⟨ss, cs, hss, hcs, ho⟩ := interpolate_cb_ok_shape h
  refine ⟨ss, cs, hss, hcs, ?_, ?_, interpolate_defBeforeUse h⟩
  · rw [ho]
    simp
  · show ((cs.zip ss).map _).length = _
    rw [List.length_map, List.length_zip, seqMap_some_length hss,
      seqMap_some_length hcs, Nat.min_self]
    exact length_ndPoints _ _

/-- The 1-d radius-1 configuration of the concrete C4/C5 witnesses. -/
def c1w : Config := ⟨"src", 1, 1, false, []⟩

/-- The equation list `interpolate` produces on `c1w` for the expression
`u[x]`. -/
def out1 : List Equation :=
  [⟨EqKind.assign, Expr.posVal 0, Expr.coordKey 0, []⟩,
   ⟨EqKind.assign, Expr.psym 0,
    Expr.sub (Expr.posVal 0)
      (Expr.mul (Expr.spacing 0)
        (Expr.intFloor (Expr.div (Expr.posVal 0) (Expr.spacing 0)))), []⟩,
   ⟨EqKind.assign, Expr.idx 0 0, Expr.add (Expr.posBase 0) (Expr.const 0), []⟩,
   ⟨EqKind.assign, Expr.idx 0 1, Expr.add (Expr.posBase 0) (Expr.const 1), []⟩,
   ⟨EqKind.assign, Expr.sumAcc, Expr.const 0, []⟩,
   ⟨EqKind.increment, Expr.sumAcc,
    Expr.mul (Expr.access uFn [AIdx.guarded 0 0 0])
      (Expr.sub (Expr.const 1) (Expr.div (Expr.psym 0) (Expr.spacing 0))), []⟩,
   ⟨EqKind.increment, Expr.sumAcc,
    Expr.mul (Expr.access uFn [AIdx.guarded 0 1 0])
      (Expr.div (Expr.psym 0) (Expr.spacing 0)), []⟩,
   ⟨EqKind.assign, Expr.sparseAcc, Expr.sumAcc, []⟩]

/-- Witness for C4: the concrete 1-d interpolation produces `out1` (temps,
zero-init, two neighbor increments, final write) with definitions before
uses. -/
theorem C4_interpolate_equation_order_witness :
    interpolate_cb c1w SchemeKind.linear (Expr.access uFn [AIdx.dense 0]) 0 false []
        = Except.ok out1
    ∧ defBeforeUse out1 := by
  have h : interpolate_cb c1w SchemeKind.linear (Expr.access uFn [AIdx.dense 0]) 0
      false [] = Except.ok out1 := rfl
  obtain ⟨ss, cs, _, _, _, _, hdbu⟩ :=
    C4_interpolate_equation_order c1w SchemeKind.linear
      (Expr.access uFn [AIdx.dense 0]) 0 false [] out1 h
  exact ⟨h, hdbu⟩

/-- C5: forcing `inject` yields the index temporaries followed by exactly
one equation per neighbor combination, each a reduction (`Inc`) of the field
at that neighbor's guarded, origin-corrected location by the expression's
value there times the neighbor's combined weight; no emitted update of the
field is a plain overwrite, and every field access is guarded. -/
theorem C5_inject_reduction_increments (c : Config) (k : SchemeKind)
    (field : GridFn) (expr : Expr) (offset : ℚ) (idims : List Nat)
    (out : List Equation)
    (h : inject_cb c k field expr offset idims = Except.ok out) :
    ∃ ss cs,
      idx_subs c k (retrieve_function_carriers expr ++ [field]) = some ss
      ∧ interpolation_coeffs c k = some cs
      ∧ out = all_temps c k (full_idims c idims)
          ++ (cs.zip ss).map (fun bv =>
              (⟨EqKind.increment, xreplace bv.2 (canonAccess c.d field),
                Expr.mul (xreplace bv.2 expr) bv.1, full_idims c idims⟩ : Equation))
      ∧ (cs.zip ss).length = (interp_points c k).length ^ c.d
      ∧ (∀ eq ∈ out, (∃ f idxs, eq.lhs = Expr.access f idxs) →
            eq.kind = EqKind.increment)
      ∧ (∀ eq ∈ out, eqGuarded c k eq) := by
  obtain ⟨ss, cs, hss, hcs, ho⟩ := inject_cb_ok_shape h
  refine ⟨ss, cs, hss, hcs, ho, ?_, ?_, inject_out_guarded h⟩
  · rw [List.length_zip, seqMap_some_length hss, seqMap_some_length hcs,
      Nat.min_self]
    exact length_ndPoints _ _
  · intro eq heq hacc
    rw [ho] at heq
    rcases List.mem_append.mp heq with htemp | heqn
    · obtain ⟨f, idxs, hlhs⟩ := hacc
      exact absurd hlhs (all_temps_lhs_not_access eq htemp f idxs)
    · obtain ⟨bv, _, rfl⟩ := List.mem_map.mp heqn
      rfl

/-- The equation list `inject` produces on `c1w` injecting the constant
`2` into `uFn`. -/
def out2 : List Equation :=
  [⟨EqKind.assign, Expr.posVal 0, Expr.coordKey 0, []⟩,
   ⟨EqKind.assign, Expr.psym 0,
    Expr.sub (Expr.posVal 0)
      (Expr.mul (Expr.spacing 0)
        (Expr.intFloor (Expr.div (Expr.posVal 0) (Expr.spacing 0)))), []⟩,
   ⟨EqKind.assign, Expr.idx 0 0, Expr.add (Expr.posBase 0) (Expr.const 0), []⟩,
   ⟨EqKind.assign, Expr.idx 0 1, Expr.add (Expr.posBase 0) (Expr.const 1), []⟩,
   ⟨EqKind.increment, Expr.access uFn [AIdx.guarded 0 0 0],
    Expr.mul (Expr.const 2)
      (Expr.sub (Expr.const 1) (Expr.div (Expr.psym 0) (Expr.spacing 0))), []⟩,
   ⟨EqKind.increment, Expr.access uFn [AIdx.guarded 0 1 0],
    Expr.mul (Expr.const 2) (Expr.div (Expr.psym 0) (Expr.spacing 0)), []⟩]

/-- Witness for C5: the concrete 1-d injection of the constant `2` emits
only guarded `Inc` updates of the field. -/
theorem C5_inject_reduction_increments_witness :
    inject_cb c1w SchemeKind.linear uFn (Expr.const 2) 0 [] = Except.ok out2
    ∧ (∀ eq ∈ out2, (∃ f idxs, eq.lhs = Expr.access f idxs) →
          eq.kind = EqKind.increment) := by
  have h : inject_cb c1w SchemeKind.linear uFn (Expr.const 2) 0 []
      = Except.ok out2 := rfl
  obtain ⟨ss, cs, _, _, _, _, hnower, _⟩ :=
    C5_inject_reduction_increments c1w SchemeKind.linear uFn (Expr.const 2) 0 []
      out2 h
  exact ⟨h, hnower⟩

end Devito
